import Mathlib

/-!
Verification of the `my_Webserver` core: the bounded-queue thread pool
(`src/threadpool/threadpool.h`) and the HTTP connection state machine
(`src/http/http_conn.h`).

The thread pool is embedded shallowly: the work queue `m_workqueue`
(a `std::list<T*>`) becomes a `List (Option τ)` (a `T*` may be null),
the counting semaphore `m_queuestat` becomes a `Nat` counter, and the
mutex / semaphore / connection-pool operations are recorded as an
explicit trace of `Action`s so that ordering claims (post after unlock,
pop under the lock, scoped connection acquisition) are expressible.
The semaphore and mutex themselves live in `lock/locker.h`, which is not
part of the provided sources; their semantics (counting semaphore:
`post` increments, `wait` blocks while zero then decrements; mutex:
plain lock/unlock) are taken from the specification.
-/

namespace Webserver

/-- Observable micro-operations of the thread-pool code, used to state
ordering properties (e.g. the semaphore is posted after the queue lock is
released, a pop happens only between a lock and the matching unlock). -/
inductive Action (τ : Type) where
  | lock
  | unlock
  | post
  | wait
  | push (r : Option τ)
  | pop (r : Option τ)
  | acquireConn
  | releaseConn
  | process (t : τ)
  | freeThreads
  | setStop
  deriving DecidableEq, Repr

/-- The mutable state of a `threadpool<T>` object that the claims are about:
the request queue `m_workqueue` (front of the list = front of the queue),
the value of the counting semaphore `m_queuestat`, and the flag `m_stop`. -/
structure PoolState (τ : Type) where
  workqueue : List (Option τ)
  queuestat : Nat
  stop : Bool
  deriving DecidableEq, Repr

/-- `threadpool<T>::append(T *request)` (threadpool.h lines 126-140):
lock; if `m_workqueue.size() > m_max_requests` unlock and return false;
otherwise push_back the request, unlock, post the semaphore, return true.
Returns the result, the new state and the trace of actions performed. -/
def append {τ : Type} (maxRequests : Nat) (s : PoolState τ) (request : Option τ) :
    Bool × PoolState τ × List (Action τ) :=
  if s.workqueue.length > maxRequests then
    (false, s, [Action.lock, Action.unlock])
  else
    (true,
     { s with workqueue := s.workqueue ++ [request], queuestat := s.queuestat + 1 },
     [Action.lock, Action.push request, Action.unlock, Action.post])

/-- The body of one iteration of `threadpool<T>::run()` (threadpool.h lines
167-193), entered once the semaphore wait has been passed: lock; if the queue
is empty, unlock and continue; otherwise take the front, pop it, unlock; if
the pointer is null continue; otherwise acquire a database connection
(`connectionRAII mysqlcon(&request->mysql, m_connPool)`), call
`request->process()`, and release the connection when the RAII scope closes.
Returns the new queue, the popped element (if any) and the action trace. -/
def runIter {τ : Type} (q : List (Option τ)) :
    List (Option τ) × Option (Option τ) × List (Action τ) :=
  match q with
  | [] => ([], none, [Action.wait, Action.lock, Action.unlock])
  | none :: rest =>
      (rest, some none, [Action.wait, Action.lock, Action.pop none, Action.unlock])
  | some t :: rest =>
      (rest, some (some t),
       [Action.wait, Action.lock, Action.pop (some t), Action.unlock,
        Action.acquireConn, Action.process t, Action.releaseConn])

/-- Result of letting a worker attempt one iteration of `run()`:
the loop has exited (`m_stop` was true at the top of the loop),
the worker is blocked in `m_queuestat.wait()` (semaphore is zero),
or a full iteration ran. -/
inductive StepResult (τ : Type) where
  | exited
  | blocked
  | stepped (s : PoolState τ) (popped : Option (Option τ)) (tr : List (Action τ))
  deriving DecidableEq, Repr

/-- One attempt at an iteration of `threadpool<T>::run()` (threadpool.h lines
163-194): the `while (!m_stop)` condition is tested only at the top; then the
worker blocks in `m_queuestat.wait()` until the semaphore is positive;
passing the wait decrements the semaphore and the loop body `runIter` runs. -/
def runStep {τ : Type} (s : PoolState τ) : StepResult τ :=
  if s.stop then StepResult.exited
  else if s.queuestat = 0 then StepResult.blocked
  else
    let (q', popped, tr) := runIter s.workqueue
    StepResult.stepped { s with workqueue := q', queuestat := s.queuestat - 1 } popped tr

/-- `threadpool<T>::~threadpool()` (threadpool.h lines 115-120):
`delete[] m_threads; m_stop = true;` — nothing else. -/
def destructor {τ : Type} (s : PoolState τ) : PoolState τ × List (Action τ) :=
  ({ s with stop := true }, [Action.freeThreads, Action.setStop])

/-- Count of `pop` actions in a trace. -/
def popCount {τ : Type} (tr : List (Action τ)) : Nat :=
  tr.countP (fun a => match a with | Action.pop _ => true | _ => false)

/-- Count of `wait` actions in a trace. -/
def waitCount {τ : Type} (tr : List (Action τ)) : Nat :=
  tr.countP (fun a => match a with | Action.wait => true | _ => false)

/-- C1 counterexample state: a queue holding exactly `maxRequests = 1`
pending task. -/
def c1State : PoolState Nat := { workqueue := [some 0], queuestat := 1, stop := false }

/-- C1, as stated, is false on the code: with `m_max_requests = 1` and a queue
currently holding exactly one pending task, `append` returns `true` (the guard
is `m_workqueue.size() > m_max_requests`, which is strict), and the task is
enqueued — not rejected. -/
theorem C1_counterexample :
    (append 1 c1State (some 1)).1 = true ∧
    (append 1 c1State (some 1)).2.1.workqueue = [some 0, some 1] := by
  constructor <;> rfl

/-- C1 (amended): `append` rejects exactly when the queue already holds more
than `m_max_requests` pending tasks (so the queue can reach length
`m_max_requests + 1`), leaving the queue unchanged on rejection; and once at
least one task has been dequeued from a just-rejecting queue (length
`m_max_requests + 1`), a subsequent `append` succeeds again. -/
theorem C1_amended {τ : Type} (maxRequests : Nat) (s : PoolState τ) (r r' : Option τ)
    (hfull : s.workqueue.length > maxRequests) :
    (append maxRequests s r).1 = false ∧
    (append maxRequests s r).2.1 = s ∧
    (s.workqueue.length = maxRequests + 1 →
      (append maxRequests { s with workqueue := (runIter s.workqueue).1 } r').1 = true) := by
  refine ⟨?_, ?_, ?_⟩
  · simp [append, hfull]
  · simp [append, hfull]
  · intro hlen
    have hq : (runIter s.workqueue).1.length = maxRequests := by
      cases hw : s.workqueue with
      | nil => rw [hw] at hlen; simp at hlen
      | cons a rest =>
          have hr : (runIter (a :: rest)).1 = rest := by
            cases a <;> simp [runIter]
          rw [hw] at hlen
          simp at hlen
          rw [hr, hlen]
    simp [append, hq]

/-- C1 amended witness: with `maxRequests = 1`, a queue of length 2 rejects,
is unchanged, and after one dequeue an append succeeds again. -/
theorem C1_amended_witness :
    (append 1 (⟨[some 0, some 1], 2, false⟩ : PoolState Nat) (some 2)).1 = false ∧
    (append 1 (⟨[some 1], 2, false⟩ : PoolState Nat) (some 2)).1 = true := by
  have h := C1_amended (τ := Nat) 1 ⟨[some 0, some 1], 2, false⟩ (some 2) (some 2)
    (by decide)
  exact ⟨h.1, h.2.2 (by decide)⟩

/-- C3: `append` is atomic. On failure the state (queue and semaphore) is
unchanged and only lock/unlock happen — in particular the semaphore is never
posted. On success exactly one entry is appended at the tail, the semaphore is
incremented exactly once, and the trace is lock, push, unlock, post — so the
post happens after the lock is released. `append` contains no wait, so it
never blocks beyond the queue lock. -/
theorem C3_append_atomic {τ : Type} (maxRequests : Nat) (s : PoolState τ) (r : Option τ) :
    ((append maxRequests s r).1 = false →
      (append maxRequests s r).2.1 = s ∧
      (append maxRequests s r).2.2 = [Action.lock, Action.unlock]) ∧
    ((append maxRequests s r).1 = true →
      (append maxRequests s r).2.1.workqueue = s.workqueue ++ [r] ∧
      (append maxRequests s r).2.1.queuestat = s.queuestat + 1 ∧
      (append maxRequests s r).2.1.stop = s.stop ∧
      (append maxRequests s r).2.2 =
        [Action.lock, Action.push r, Action.unlock, Action.post]) ∧
    Action.wait ∉ (append maxRequests s r).2.2 := by
  by_cases hfull : s.workqueue.length > maxRequests
  · refine ⟨fun _ => ?_, fun htrue => ?_, ?_⟩
    · simp [append, hfull]
    · simp [append, hfull] at htrue
    · simp [append, hfull]
  · refine ⟨fun hfalse => ?_, fun _ => ?_, ?_⟩
    · simp [append, hfull] at hfalse
    · simp [append, hfull]
    · simp [append, hfull]

/-- C3 witness: concrete failure and success calls, with the hypotheses of
`C3_append_atomic` discharged by computation. -/
theorem C3_append_atomic_witness :
    ((append 0 (⟨[some 7], 1, false⟩ : PoolState Nat) (some 8)).2.1 = ⟨[some 7], 1, false⟩) ∧
    ((append 3 (⟨[some 7], 1, false⟩ : PoolState Nat) (some 8)).2.1.workqueue =
      [some 7, some 8]) := by
  have h1 := C3_append_atomic (τ := Nat) 0 ⟨[some 7], 1, false⟩ (some 8)
  have h2 := C3_append_atomic (τ := Nat) 3 ⟨[some 7], 1, false⟩ (some 8)
  exact ⟨(h1.1 (by decide)).1, (h2.2.1 (by decide)).1⟩

/-- C4: in every executed iteration of the worker loop the trace performs
exactly one semaphore wait and at most one pop; when the queue is empty at
the wake (spurious wake) nothing is popped, the queue is unchanged and the
worker just locks and unlocks; when the queue is non-empty exactly the head
is popped, and the pop action sits strictly between the lock and the unlock
(the trace starts `wait, lock, pop head, unlock`). -/
theorem C4_worker_pop_discipline {τ : Type} (s s' : PoolState τ)
    (popped : Option (Option τ)) (tr : List (Action τ))
    (h : runStep s = StepResult.stepped s' popped tr) :
    popCount tr ≤ 1 ∧
    waitCount tr = 1 ∧
    (s.workqueue = [] →
      popped = none ∧ s'.workqueue = [] ∧
      tr = [Action.wait, Action.lock, Action.unlock]) ∧
    (∀ a rest, s.workqueue = a :: rest →
      popped = some a ∧ s'.workqueue = rest ∧
      tr.take 4 = [Action.wait, Action.lock, Action.pop a, Action.unlock]) := by
  unfold runStep at h
  by_cases hstop : s.stop
  · simp [hstop] at h
  by_cases hsem : s.queuestat = 0
  · simp [hstop, hsem] at h
  simp only [hstop, hsem, if_false, Bool.false_eq_true] at h
  cases hw : s.workqueue with
  | nil =>
      rw [hw] at h
      simp [runIter] at h
      obtain ⟨hs', hp, htr⟩ := h
      subst hp htr
      refine ⟨Nat.zero_le 1, rfl, ?_, ?_⟩
      · exact fun _ => ⟨rfl, by rw [← hs'], rfl⟩
      · intro a rest hra
        exact absurd hra (by simp)
  | cons a rest =>
      rw [hw] at h
      cases a with
      | none =>
          simp [runIter] at h
          obtain ⟨hs', hp, htr⟩ := h
          subst hp htr
          refine ⟨Nat.le.refl, rfl, ?_, ?_⟩
          · intro he; exact absurd he (by simp)
          · intro a' rest' hra
            obtain ⟨h1, h2⟩ := List.cons.inj hra
            subst h1
            subst h2
            exact ⟨rfl, by rw [← hs'], rfl⟩
      | some t =>
          simp [runIter] at h
          obtain ⟨hs', hp, htr⟩ := h
          subst hp htr
          refine ⟨Nat.le.refl, rfl, ?_, ?_⟩
          · intro he; exact absurd he (by simp)
          · intro a' rest' hra
            obtain ⟨h1, h2⟩ := List.cons.inj hra
            subst h1
            subst h2
            exact ⟨rfl, by rw [← hs'], rfl⟩

/-- C4 witness: a concrete stepped iteration on a one-element queue pops
exactly that head under the lock. -/
theorem C4_worker_pop_discipline_witness :
    popCount [Action.wait, Action.lock, Action.pop (some 5), Action.unlock,
      Action.acquireConn, Action.process (5 : Nat), Action.releaseConn] ≤ 1 ∧
    [Action.wait, Action.lock, Action.pop (some 5), Action.unlock,
      Action.acquireConn, Action.process (5 : Nat), Action.releaseConn].take 4 =
      [Action.wait, Action.lock, Action.pop (some 5), Action.unlock] := by
  have h := C4_worker_pop_discipline (τ := Nat) ⟨[some 5], 1, false⟩
      ⟨[], 0, false⟩ (some (some 5))
      [Action.wait, Action.lock, Action.pop (some 5), Action.unlock,
       Action.acquireConn, Action.process 5, Action.releaseConn] (by rfl)
  exact ⟨h.1, (h.2.2.2 (some 5) [] rfl).2.2⟩

/-- Exhaustive description of a stepped worker iteration: the stop flag was
false, the semaphore was positive and is decremented, and the iteration is one
of: spurious wake on an empty queue (no pop), popping a null pointer (no
processing), or popping a real task and processing it with a scoped database
connection. -/
theorem runStep_cases {τ : Type} (s s' : PoolState τ) (popped : Option (Option τ))
    (tr : List (Action τ)) (h : runStep s = StepResult.stepped s' popped tr) :
    s.stop = false ∧ s.queuestat ≠ 0 ∧ s'.queuestat = s.queuestat - 1 ∧ s'.stop = s.stop ∧
    ((s.workqueue = [] ∧ popped = none ∧ s'.workqueue = [] ∧
        tr = [Action.wait, Action.lock, Action.unlock]) ∨
     (∃ rest, s.workqueue = none :: rest ∧ popped = some none ∧ s'.workqueue = rest ∧
        tr = [Action.wait, Action.lock, Action.pop none, Action.unlock]) ∨
     (∃ t rest, s.workqueue = some t :: rest ∧ popped = some (some t) ∧
        s'.workqueue = rest ∧
        tr = [Action.wait, Action.lock, Action.pop (some t), Action.unlock,
              Action.acquireConn, Action.process t, Action.releaseConn])) := by
  unfold runStep at h
  by_cases hstop : s.stop
  · simp [hstop] at h
  by_cases hsem : s.queuestat = 0
  · simp [hstop, hsem] at h
  simp only [hstop, hsem, if_false, Bool.false_eq_true] at h
  refine ⟨by simpa using hstop, hsem, ?_⟩
  cases hw : s.workqueue with
  | nil =>
      rw [hw] at h
      simp [runIter] at h
      obtain ⟨hs', hp, htr⟩ := h
      subst hp htr
      exact ⟨by rw [← hs'], by rw [← hs']; exact (show s.stop = false by simpa using hstop).symm,
        Or.inl ⟨rfl, rfl, by rw [← hs'], rfl⟩⟩
  | cons a rest =>
      rw [hw] at h
      cases a with
      | none =>
          simp [runIter] at h
          obtain ⟨hs', hp, htr⟩ := h
          subst hp htr
          exact ⟨by rw [← hs'], by rw [← hs']; exact (show s.stop = false by simpa using hstop).symm,
            Or.inr (Or.inl ⟨rest, rfl, rfl, by rw [← hs'], rfl⟩)⟩
      | some t =>
          simp [runIter] at h
          obtain ⟨hs', hp, htr⟩ := h
          subst hp htr
          exact ⟨by rw [← hs'], by rw [← hs']; exact (show s.stop = false by simpa using hstop).symm,
            Or.inr (Or.inr ⟨t, rest, rfl, rfl, by rw [← hs'], rfl⟩)⟩

/-- C5: pool teardown (`~threadpool`) only frees the thread array and sets the
stop flag: its trace is exactly `[freeThreads, setStop]` — it contains no
semaphore post — and it leaves the semaphore counter and the queue unchanged
while setting `m_stop`. Hence a worker blocked in `m_queuestat.wait()`
(semaphore zero, stop not yet set when it entered the loop) is still blocked
after teardown: the blocked condition `queuestat = 0` is preserved, since the
worker re-tests `m_stop` only at the top of the next iteration, which it
cannot reach without a post. -/
theorem C5_teardown_never_wakes {τ : Type} (s : PoolState τ) :
    (destructor s).2 = [Action.freeThreads, Action.setStop] ∧
    Action.post ∉ (destructor s).2 ∧
    Action.wait ∉ (destructor s).2 ∧
    (destructor s).1.queuestat = s.queuestat ∧
    (destructor s).1.workqueue = s.workqueue ∧
    (destructor s).1.stop = true ∧
    (s.stop = false → s.queuestat = 0 →
      runStep s = StepResult.blocked ∧ (destructor s).1.queuestat = 0) := by
  refine ⟨rfl, by simp [destructor], by simp [destructor], rfl, rfl, rfl,
    fun hstop hsem => ⟨?_, ?_⟩⟩
  · simp [runStep, hstop, hsem]
  · simp [destructor, hsem]

/-- C5 witness: concrete blocked worker (empty queue, semaphore zero) stays
blocked across teardown. -/
theorem C5_teardown_never_wakes_witness :
    runStep (⟨[], 0, false⟩ : PoolState Nat) = StepResult.blocked ∧
    (destructor (⟨[], 0, false⟩ : PoolState Nat)).1.queuestat = 0 := by
  exact (C5_teardown_never_wakes (τ := Nat) ⟨[], 0, false⟩).2.2.2.2.2.2 rfl rfl

/-- C6: in a stepped worker iteration, exactly when a (non-null) task is
processed, the trace acquires exactly one database connection immediately
before `process` and releases it immediately after, before the iteration ends
(the RAII scope of `connectionRAII mysqlcon(&request->mysql, m_connPool)`);
in iterations that process nothing (spurious wake, or null pointer popped) no
connection is acquired or released. -/
theorem C6_scoped_connection {τ : Type} (s s' : PoolState τ)
    (popped : Option (Option τ)) (tr : List (Action τ))
    (h : runStep s = StepResult.stepped s' popped tr) :
    (∀ t : τ, popped = some (some t) →
      tr = [Action.wait, Action.lock, Action.pop (some t), Action.unlock,
            Action.acquireConn, Action.process t, Action.releaseConn]) ∧
    ((∀ t : τ, popped ≠ some (some t)) →
      Action.acquireConn ∉ tr ∧ Action.releaseConn ∉ tr) := by
  obtain ⟨-, -, -, -, hcase⟩ := runStep_cases s s' popped tr h
  rcases hcase with ⟨-, hp, -, htr⟩ | ⟨rest, -, hp, -, htr⟩ | ⟨t, rest, -, hp, -, htr⟩
  · subst hp htr
    exact ⟨fun t hpt => absurd hpt (by simp), fun _ => ⟨by simp, by simp⟩⟩
  · subst hp htr
    exact ⟨fun t hpt => absurd hpt (by simp), fun _ => ⟨by simp, by simp⟩⟩
  · subst hp htr
    refine ⟨fun t' hpt => ?_, fun hne => absurd rfl (hne t)⟩
    obtain rfl : t = t' := by
      injection hpt with h1
      injection h1
    rfl

/-- C6 witness: processing the concrete task 5 acquires and releases the
connection around `process` in the trace. -/
theorem C6_scoped_connection_witness :
    [Action.wait, Action.lock, Action.pop (some 5), Action.unlock,
     Action.acquireConn, Action.process (5 : Nat), Action.releaseConn] =
    [Action.wait, Action.lock, Action.pop (some 5), Action.unlock,
     Action.acquireConn, Action.process (5 : Nat), Action.releaseConn] := by
  have h := C6_scoped_connection (τ := Nat) ⟨[some 5], 1, false⟩ ⟨[], 0, false⟩
      (some (some 5))
      [Action.wait, Action.lock, Action.pop (some 5), Action.unlock,
       Action.acquireConn, Action.process 5, Action.releaseConn] (by rfl)
  exact h.1 5 rfl

/-- External events that drive the work queue: the reactor calls `append`
with a task, or a worker attempts one iteration of `run`. -/
inductive Event (τ : Type) where
  | app (r : Option τ)
  | deq
  deriving DecidableEq, Repr

/-- A pool state together with the log of tasks popped by workers (in pop
order) and the log of tasks successfully enqueued by `append` (in arrival
order). The logs are history variables used only to state the FIFO claim. -/
structure SysState (τ : Type) where
  pool : PoolState τ
  deqLog : List (Option τ)
  enqLog : List (Option τ)
  deriving DecidableEq, Repr

/-- One system step: an `append` call (recording the task in the arrival log
exactly when it succeeds) or one worker iteration attempt (recording the
popped task, if any, in the dequeue log). -/
def sysStep {τ : Type} (maxRequests : Nat) (s : SysState τ) : Event τ → SysState τ
  | Event.app r =>
      let (ok, p', _) := append maxRequests s.pool r
      { s with pool := p', enqLog := if ok then s.enqLog ++ [r] else s.enqLog }
  | Event.deq =>
      match runStep s.pool with
      | StepResult.stepped p' popped _ =>
          { s with pool := p',
                   deqLog := match popped with
                             | some a => s.deqLog ++ [a]
                             | none => s.deqLog }
      | _ => s

/-- Run a sequence of events from a state. -/
def sysRun {τ : Type} (maxRequests : Nat) (s : SysState τ) : List (Event τ) → SysState τ
  | [] => s
  | e :: es => sysRun maxRequests (sysStep maxRequests s e) es

/-- Initial system state: freshly constructed pool (empty queue, semaphore
zero, stop flag false) and empty logs. -/
def sysInit (τ : Type) : SysState τ := ⟨⟨[], 0, false⟩, [], []⟩

/-- FIFO invariant preserved by every event: the tasks already popped,
followed by the tasks still queued, are exactly the successfully appended
tasks in arrival order. -/
theorem sysStep_inv {τ : Type} (maxRequests : Nat) (s : SysState τ) (e : Event τ)
    (hinv : s.deqLog ++ s.pool.workqueue = s.enqLog) :
    (sysStep maxRequests s e).deqLog ++ (sysStep maxRequests s e).pool.workqueue =
      (sysStep maxRequests s e).enqLog := by
  cases e with
  | app r =>
      by_cases hfull : s.pool.workqueue.length > maxRequests
      · simpa [sysStep, append, hfull] using hinv
      · simp only [sysStep, append, hfull, if_false, if_true]
        rw [← List.append_assoc, hinv]
  | deq =>
      cases hr : runStep s.pool with
      | exited => simpa [sysStep, hr] using hinv
      | blocked => simpa [sysStep, hr] using hinv
      | stepped p' popped tr =>
          obtain ⟨-, -, -, -, hcase⟩ := runStep_cases s.pool p' popped tr hr
          rcases hcase with ⟨hq, hp, hq', -⟩ | ⟨rest, hq, hp, hq', -⟩ |
            ⟨t, rest, hq, hp, hq', -⟩
          · subst hp
            simp only [sysStep, hr, hq']
            rw [hq] at hinv
            simpa using hinv
          · subst hp
            simp only [sysStep, hr, hq']
            rw [hq] at hinv
            rw [← hinv]
            simp
          · subst hp
            simp only [sysStep, hr, hq']
            rw [hq] at hinv
            rw [← hinv]
            simp

/-- The invariant holds after any run from a state satisfying it. -/
theorem sysRun_inv {τ : Type} (maxRequests : Nat) (events : List (Event τ))
    (s : SysState τ) (hinv : s.deqLog ++ s.pool.workqueue = s.enqLog) :
    (sysRun maxRequests s events).deqLog ++ (sysRun maxRequests s events).pool.workqueue =
      (sysRun maxRequests s events).enqLog := by
  induction events generalizing s with
  | nil => exact hinv
  | cons e es ih => exact ih _ (sysStep_inv maxRequests s e hinv)

/-- C2: the work queue is strict FIFO. For any interleaving of `append` calls
and worker iterations starting from a fresh pool, the log of tasks popped by
workers followed by the tasks still queued equals the log of successfully
appended tasks in arrival order; in particular the pop log is always a prefix
of the arrival log — workers dequeue exactly in arrival order, with no
priority or reordering. -/
theorem C2_fifo {τ : Type} (maxRequests : Nat) (events : List (Event τ)) :
    (sysRun maxRequests (sysInit τ) events).deqLog ++
      (sysRun maxRequests (sysInit τ) events).pool.workqueue =
      (sysRun maxRequests (sysInit τ) events).enqLog ∧
    (sysRun maxRequests (sysInit τ) events).deqLog <+:
      (sysRun maxRequests (sysInit τ) events).enqLog := by
  have h := sysRun_inv maxRequests events (sysInit τ) rfl
  exact ⟨h, ⟨(sysRun maxRequests (sysInit τ) events).pool.workqueue, h⟩⟩

/-- A fully constructed pool as produced by the `threadpool` constructor:
the stored `m_thread_number` and `m_max_requests` and the number of worker
threads actually created and detached. -/
structure Pool where
  threadNumber : Int
  maxRequests : Int
  threadsSpawned : Nat
  deriving DecidableEq, Repr

/-- The thread-creation loop of the constructor (threadpool.h lines 86-110):
for each `i` in order, `pthread_create` then `pthread_detach`; a nonzero
return from either frees the array and throws `std::exception`.
`createFails i` / `detachFails i` model nonzero returns of the two pthread
calls for the `i`-th thread. Returns the number of threads spawned and
detached, or an error. -/
def spawnThreads (createFails detachFails : Nat → Bool) : Nat → Nat → Except Unit Nat
  | _, 0 => Except.ok 0
  | i, n + 1 =>
      if createFails i then Except.error ()
      else if detachFails i then Except.error ()
      else (spawnThreads createFails detachFails (i + 1) n).map (· + 1)

/-- `threadpool<T>::threadpool(connPool, thread_number, max_request)`
(threadpool.h lines 71-111): throws `std::exception` (modelled as
`Except.error`) when `thread_number <= 0 || max_requests <= 0`; otherwise
allocates the `pthread_t` array and creates and detaches `thread_number`
worker threads in a loop, throwing on any creation or detachment failure;
only on full success does the constructor return. -/
def threadpoolCtor (threadNumber maxRequest : Int)
    (createFails detachFails : Nat → Bool) : Except Unit Pool :=
  if threadNumber ≤ 0 ∨ maxRequest ≤ 0 then Except.error ()
  else
    match spawnThreads createFails detachFails 0 threadNumber.toNat with
    | Except.error _ => Except.error ()
    | Except.ok k => Except.ok ⟨threadNumber, maxRequest, k⟩

/-- If no pthread call in range fails, the spawn loop succeeds and spawns
exactly `n` threads. -/
theorem spawnThreads_ok (createFails detachFails : Nat → Bool) (i n : Nat)
    (h : ∀ j, j < n → createFails (i + j) = false ∧ detachFails (i + j) = false) :
    spawnThreads createFails detachFails i n = Except.ok n := by
  induction n generalizing i with
  | zero => rfl
  | succ m ih =>
      have h0 := h 0 (Nat.succ_pos m)
      rw [Nat.add_zero] at h0
      have hrec := ih (i + 1) (fun j hj => by
        have := h (j + 1) (Nat.succ_lt_succ hj)
        rwa [Nat.add_comm j 1, ← Nat.add_assoc] at this)
      simp [spawnThreads, h0.1, h0.2, hrec, Except.map]

/-- If the spawn loop succeeds it spawned exactly `n` threads and no pthread
call in range failed. -/
theorem spawnThreads_ok_inv (createFails detachFails : Nat → Bool) (i n k : Nat)
    (h : spawnThreads createFails detachFails i n = Except.ok k) :
    k = n ∧ ∀ j, j < n → createFails (i + j) = false ∧ detachFails (i + j) = false := by
  induction n generalizing i k with
  | zero =>
      simp [spawnThreads] at h
      exact ⟨h.symm, fun j hj => absurd hj (Nat.not_lt_zero j)⟩
  | succ m ih =>
      by_cases hc : createFails i
      · simp [spawnThreads, hc] at h
      by_cases hd : detachFails i
      · simp [spawnThreads, hc, hd] at h
      simp only [spawnThreads, hc, hd, if_false, Bool.false_eq_true] at h
      cases hrec : spawnThreads createFails detachFails (i + 1) m with
      | error e => rw [hrec] at h; simp [Except.map] at h
      | ok k' =>
          rw [hrec] at h
          simp [Except.map] at h
          obtain ⟨hk', hall⟩ := ih (i + 1) k' hrec
          refine ⟨by omega, fun j hj => ?_⟩
          cases j with
          | zero => rw [Nat.add_zero]; exact ⟨by simpa using hc, by simpa using hd⟩
          | succ j' =>
              have := hall j' (by omega)
              rwa [Nat.add_assoc, Nat.add_comm 1 j'] at this

/-- C10: the constructor throws `std::exception` when `thread_number <= 0` or
`max_request <= 0`, and when any thread creation or detachment fails; on
success it has spawned exactly `thread_number` detached worker threads before
returning, and a returned pool is always fully constructed: success implies
both arguments were positive and no pthread call failed, so no
partially-constructed pool is ever observable. -/
theorem C10_constructor (threadNumber maxRequest : Int)
    (createFails detachFails : Nat → Bool) :
    ((threadNumber ≤ 0 ∨ maxRequest ≤ 0) →
      threadpoolCtor threadNumber maxRequest createFails detachFails =
        Except.error ()) ∧
    ((∃ i, i < threadNumber.toNat ∧ (createFails i = true ∨ detachFails i = true)) →
      threadpoolCtor threadNumber maxRequest createFails detachFails =
        Except.error ()) ∧
    (∀ p, threadpoolCtor threadNumber maxRequest createFails detachFails =
        Except.ok p →
      p.threadsSpawned = threadNumber.toNat ∧ p.threadNumber = threadNumber ∧
      p.maxRequests = maxRequest ∧ 0 < threadNumber ∧ 0 < maxRequest ∧
      ∀ i, i < threadNumber.toNat →
        createFails i = false ∧ detachFails i = false) := by
  refine ⟨fun hneg => by simp [threadpoolCtor, hneg], fun hfail => ?_, fun p hok => ?_⟩
  · by_cases hneg : threadNumber ≤ 0 ∨ maxRequest ≤ 0
    · simp [threadpoolCtor, hneg]
    · simp only [threadpoolCtor, hneg, if_false]
      cases hs : spawnThreads createFails detachFails 0 threadNumber.toNat with
      | error e => rfl
      | ok k =>
          obtain ⟨-, hall⟩ := spawnThreads_ok_inv createFails detachFails 0
            threadNumber.toNat k hs
          obtain ⟨i, hi, hbad⟩ := hfail
          have := hall i hi
          rw [Nat.zero_add] at this
          rcases hbad with hb | hb
          · rw [this.1] at hb; exact absurd hb (by simp)
          · rw [this.2] at hb; exact absurd hb (by simp)
  · by_cases hneg : threadNumber ≤ 0 ∨ maxRequest ≤ 0
    · simp [threadpoolCtor, hneg] at hok
    · simp only [threadpoolCtor, hneg, if_false] at hok
      push_neg at hneg
      cases hs : spawnThreads createFails detachFails 0 threadNumber.toNat with
      | error e => rw [hs] at hok; exact absurd hok (by simp)
      | ok k =>
          rw [hs] at hok
          simp only [Except.ok.injEq] at hok
          obtain ⟨hk, hall⟩ := spawnThreads_ok_inv createFails detachFails 0
            threadNumber.toNat k hs
          subst hok
          refine ⟨hk, rfl, rfl, hneg.1, hneg.2, fun i hi => ?_⟩
          have := hall i hi
          rwa [Nat.zero_add] at this

/-- C10 witness: a 2-thread pool with max 5 pending requests and no pthread
failures constructs successfully with exactly 2 threads; a pool asked for 0
threads throws. -/
theorem C10_constructor_witness :
    threadpoolCtor 0 5 (fun _ => false) (fun _ => false) = Except.error () ∧
    (⟨2, 5, 2⟩ : Pool).threadsSpawned = (2 : Int).toNat := by
  have h0 := C10_constructor 0 5 (fun _ => false) (fun _ => false)
  have h2 := C10_constructor 2 5 (fun _ => false) (fun _ => false)
  refine ⟨h0.1 (Or.inl (by norm_num)), ?_⟩
  have : threadpoolCtor 2 5 (fun _ => false) (fun _ => false) =
      Except.ok ⟨2, 5, 2⟩ := by rfl
  exact (h2.2.2 ⟨2, 5, 2⟩ this).1

/-! ## HTTP connection state machine (`src/http/http_conn.h`)

`http_conn.h` declares the parser and response builder but their bodies are
not among the provided sources; the definitions below marked
`Modelled from the spec:` reconstruct those bodies from the specification's
description of the request state machine (§4.1), the response builder (§4.2)
and the testable properties (§8). The enumerations and buffer sizes are taken
directly from `http_conn.h`. -/

/-- `http_conn::METHOD` (http_conn.h lines 51-62). -/
inductive METHOD where
  | GET
  | POST
  | HEAD
  | PUT
  | DELETE
  | TRACE
  | OPTIONS
  | CONNECT
  | PATH
  deriving DecidableEq, Repr

/-- `http_conn::CHECK_STATE` (http_conn.h lines 63-68). -/
inductive CHECK_STATE where
  | CHECK_STATE_REQUESTLINE
  | CHECK_STATE_HEADER
  | CHECK_STATE_CONTENT
  deriving DecidableEq, Repr

/-- `http_conn::HTTP_CODE` (http_conn.h lines 69-79). -/
inductive HTTP_CODE where
  | NO_REQUEST
  | GET_REQUEST
  | BAD_REQUEST
  | NO_RESOURCE
  | FORBIDDEN_REQUEST
  | FILE_REQUEST
  | INTERNAL_ERROR
  | CLOSED_CONNECTION
  deriving DecidableEq, Repr

/-- `http_conn::LINE_STATUS` (http_conn.h lines 80-85). -/
inductive LINE_STATUS where
  | LINE_OK
  | LINE_BAD
  | LINE_OPEN
  deriving DecidableEq, Repr

/-- `http_conn::WRITE_BUFFER_SIZE` (http_conn.h line 50). -/
def WRITE_BUFFER_SIZE : Nat := 1024

/-- Modelled from the spec: the body of `http_conn::parse_content`
(declared http_conn.h:109) is not in the provided sources. Per §4.1 the
Content state "succeeds only once the receive buffer holds at least
`start_line + Content-Length` bytes; otherwise report need more data"; when
satisfied the request is classified complete (`GET_REQUEST`, the parser's
complete-request code). Arguments: `readIdx` = `m_read_idx` (bytes buffered),
`startLine` = `m_start_line` (offset of the body), `contentLength` =
`m_content_length`. -/
def parse_content (readIdx startLine contentLength : Nat) : HTTP_CODE :=
  if startLine + contentLength ≤ readIdx then HTTP_CODE.GET_REQUEST
  else HTTP_CODE.NO_REQUEST

/-- C7: for a POST declaring `Content-Length: N`, with fewer than N body bytes
buffered from `start_line` the parser does not classify the request complete
(`NO_REQUEST`, need more data); with exactly N body bytes it classifies it
complete. -/
theorem C7_content_length_boundary (readIdx startLine contentLength : Nat)
    (hle : startLine ≤ readIdx) :
    (readIdx - startLine < contentLength →
      parse_content readIdx startLine contentLength = HTTP_CODE.NO_REQUEST) ∧
    (readIdx - startLine = contentLength →
      parse_content readIdx startLine contentLength = HTTP_CODE.GET_REQUEST) := by
  constructor
  · intro hlt
    unfold parse_content
    rw [if_neg (by omega)]
  · intro heq
    unfold parse_content
    rw [if_pos (by omega)]

/-- C7 witness: with body offset 4 and `Content-Length: 6`, 9 buffered bytes
(5 body bytes) are insufficient and 10 buffered bytes (exactly 6) complete. -/
theorem C7_content_length_boundary_witness :
    parse_content 9 4 6 = HTTP_CODE.NO_REQUEST ∧
    parse_content 10 4 6 = HTTP_CODE.GET_REQUEST := by
  exact ⟨(C7_content_length_boundary 9 4 6 (by norm_num)).1 (by norm_num),
         (C7_content_length_boundary 10 4 6 (by norm_num)).2 (by norm_num)⟩

/-- Modelled from the spec: the body of `http_conn::add_response` (declared
http_conn.h:114) is not in the provided sources. Per §4.2 it is the "bounded
formatted-append primitive that fails closed (returns false, aborting the
response) if the send buffer would overflow rather than writing out of
bounds". `buf` is the content of `m_write_buf` up to `m_write_idx`;
`formatted` is the byte string produced by formatting the arguments. -/
def add_response (buf formatted : List Char) : Bool × List Char :=
  if WRITE_BUFFER_SIZE < buf.length + formatted.length then (false, buf)
  else (true, buf ++ formatted)

/-- C9: `add_response` fails closed: when appending the formatted bytes would
exceed `WRITE_BUFFER_SIZE` it returns false and leaves the send buffer
untouched; it never lets the send buffer grow past `WRITE_BUFFER_SIZE`; and on
success it wrote exactly the formatted bytes at the end of the buffer. -/
theorem C9_add_response_fails_closed (buf formatted : List Char)
    (hbuf : buf.length ≤ WRITE_BUFFER_SIZE) :
    (WRITE_BUFFER_SIZE < buf.length + formatted.length →
      (add_response buf formatted).1 = false ∧
      (add_response buf formatted).2 = buf) ∧
    (add_response buf formatted).2.length ≤ WRITE_BUFFER_SIZE ∧
    ((add_response buf formatted).1 = true →
      (add_response buf formatted).2 = buf ++ formatted) := by
  by_cases hover : WRITE_BUFFER_SIZE < buf.length + formatted.length
  · refine ⟨fun _ => ?_, ?_, fun htrue => ?_⟩
    · simp [add_response, hover]
    · simp [add_response, hover]; exact hbuf
    · simp [add_response, hover] at htrue
  · refine ⟨fun hc => absurd hc hover, ?_, fun _ => ?_⟩
    · simp [add_response, hover]; omega
    · simp [add_response, hover]

/-- C9 witness: a full buffer rejects a one-byte append unchanged; an empty
buffer accepts it. -/
theorem C9_add_response_fails_closed_witness :
    (add_response (List.replicate 1024 'a') ['b']).1 = false ∧
    (add_response [] ['b']).2 = ['b'] := by
  have h1 := C9_add_response_fails_closed (List.replicate 1024 'a') ['b']
    (by simp only [List.length_replicate, WRITE_BUFFER_SIZE, le_refl])
  have h2 := C9_add_response_fails_closed [] ['b']
    (by simp only [List.length_nil, WRITE_BUFFER_SIZE]; omega)
  refine ⟨(h1.1 ?_).1, h2.2.2 rfl⟩
  simp only [List.length_replicate, List.length_cons, List.length_nil, WRITE_BUFFER_SIZE]
  omega

/-! ### The request state machine (for C8)

`http_conn::process_read` and the per-state handlers are declared in
http_conn.h (line 105) but their bodies are not in the provided sources;
everything below is modelled from the spec, §4.1 and §8. The receive buffer
is a `List Char`; `pos` is the offset of the line currently being parsed
(`m_start_line`; at the top of the parse loop `m_checked_idx` coincides with
it, scanning restarts there after a `LINE_OPEN`). -/

/-- Result of scanning for a line terminator from the current line start:
`lok e` means the `"\r\n"` terminator starts at relative offset `e` (the line
is the first `e` bytes); `lopen` means the buffer was exhausted before a
terminator; `lbad` means a malformed sequence. -/
inductive LineRes where
  | lopen
  | lbad
  | lok (e : Nat)
  deriving DecidableEq, Repr

/-- Modelled from the spec: line extraction (`http_conn::parse_line`,
declared http_conn.h:112, body not in the provided sources): "scan the
receive buffer from `checked_index` forward looking for `\r\n`": `LINE_OK`
when a complete line is found, `LINE_OPEN` when the buffer is exhausted
before a terminator (including a trailing bare `\r`), `LINE_BAD` when a
`\r` is not followed by `\n` or a stray `\n` appears without a preceding
`\r`. The scan operates on the bytes from the current line start. -/
def scanFrom : List Char → LineRes
  | [] => LineRes.lopen
  | c :: rest =>
      if c = '\r' then
        match rest with
        | [] => LineRes.lopen
        | c2 :: _ => if c2 = '\n' then LineRes.lok 0 else LineRes.lbad
      else if c = '\n' then LineRes.lbad
      else
        match scanFrom rest with
        | LineRes.lok e => LineRes.lok (e + 1)
        | r => r

/-- A found terminator lies inside the scanned bytes: the `\n` at offset
`e + 1` is a valid index. -/
theorem scanFrom_lok_lt (l : List Char) (e : Nat) (h : scanFrom l = LineRes.lok e) :
    e + 1 < l.length := by
  induction l generalizing e with
  | nil => simp [scanFrom] at h
  | cons c rest ih =>
      by_cases hc : c = '\r'
      · cases rest with
        | nil => simp [scanFrom, hc] at h
        | cons c2 r2 =>
            by_cases hc2 : c2 = '\n'
            · simp [scanFrom, hc, hc2] at h
              subst h
              simp
            · simp [scanFrom, hc, hc2] at h
      · by_cases hn : c = '\n'
        · simp [scanFrom, hc, hn] at h
        · simp only [scanFrom, hc, hn, if_false] at h
          cases hrec : scanFrom rest with
          | lopen => rw [hrec] at h; exact absurd h (by simp)
          | lbad => rw [hrec] at h; exact absurd h (by simp)
          | lok e' =>
              rw [hrec] at h
              simp at h
              have := ih e' hrec
              simp only [List.length_cons]
              omega

/-- Extending the buffer past a found terminator does not change the scan. -/
theorem scanFrom_append_lok (l ext : List Char) (e : Nat)
    (h : scanFrom l = LineRes.lok e) : scanFrom (l ++ ext) = LineRes.lok e := by
  induction l generalizing e with
  | nil => simp [scanFrom] at h
  | cons c rest ih =>
      by_cases hc : c = '\r'
      · cases rest with
        | nil => simp [scanFrom, hc] at h
        | cons c2 r2 =>
            by_cases hc2 : c2 = '\n'
            · simp [scanFrom, hc, hc2] at h
              subst h
              simp [scanFrom, hc, hc2]
            · simp [scanFrom, hc, hc2] at h
      · by_cases hn : c = '\n'
        · simp [scanFrom, hc, hn] at h
        · simp only [scanFrom, hc, hn, if_false] at h ⊢
          cases hrec : scanFrom rest with
          | lopen => rw [hrec] at h; exact absurd h (by simp)
          | lbad => rw [hrec] at h; exact absurd h (by simp)
          | lok e' =>
              rw [hrec] at h
              simp at h
              simp only [List.append_eq]
              rw [ih e' hrec]
              simp [h]

/-- Extending the buffer past a malformed terminator does not change the
scan. -/
theorem scanFrom_append_lbad (l ext : List Char)
    (h : scanFrom l = LineRes.lbad) : scanFrom (l ++ ext) = LineRes.lbad := by
  induction l with
  | nil => simp [scanFrom] at h
  | cons c rest ih =>
      by_cases hc : c = '\r'
      · cases rest with
        | nil => simp [scanFrom, hc] at h
        | cons c2 r2 =>
            by_cases hc2 : c2 = '\n'
            · simp [scanFrom, hc, hc2] at h
            · simp [scanFrom, hc, hc2]
      · by_cases hn : c = '\n'
        · simp [scanFrom, hc, hn]
        · simp only [scanFrom, hc, hn, if_false] at h ⊢
          cases hrec : scanFrom rest with
          | lopen => rw [hrec] at h; exact absurd h (by simp)
          | lbad =>
              simp only [List.append_eq]
              rw [ih hrec]
          | lok e' => rw [hrec] at h; exact absurd h (by simp)

/-- The per-connection parser state during `process_read`: `m_check_state`,
the offset `pos` of the line currently being parsed, and the parsed fields
(`m_method`, `m_url`, `m_version`, `m_host`, `m_content_length`, `m_linger`,
the recorded body span `m_string`). -/
structure HttpState where
  checkState : CHECK_STATE
  pos : Nat
  method : METHOD
  url : List Char
  version : List Char
  host : List Char
  contentLength : Nat
  linger : Bool
  body : List Char
  deriving DecidableEq, Repr

/-- The parser state of a freshly initialized connection (`http_conn::init`):
request-line state, cursor at the start, method GET, no content length, no
keep-alive. -/
def initState : HttpState :=
  { checkState := CHECK_STATE.CHECK_STATE_REQUESTLINE, pos := 0,
    method := METHOD.GET, url := [], version := [], host := [],
    contentLength := 0, linger := false, body := [] }

/-- Modelled from the spec: the "default landing resource" an empty URL path
maps to (§4.1; the spec does not name the concrete file). -/
def defaultLanding : List Char := '/' :: ('i' :: 'n' :: 'd' :: 'e' :: 'x' :: [])

/-- Modelled from the spec: the method token is "matched case-sensitively
against the enumerated verb set" (§4.1). -/
def parseMethod (m : List Char) : Option METHOD :=
  if m = ('G' :: 'E' :: 'T' :: []) then some METHOD.GET
  else if m = ('P' :: 'O' :: 'S' :: 'T' :: []) then some METHOD.POST
  else if m = ('H' :: 'E' :: 'A' :: 'D' :: []) then some METHOD.HEAD
  else if m = ('P' :: 'U' :: 'T' :: []) then some METHOD.PUT
  else if m = ('D' :: 'E' :: 'L' :: 'E' :: 'T' :: 'E' :: []) then some METHOD.DELETE
  else if m = ('T' :: 'R' :: 'A' :: 'C' :: 'E' :: []) then some METHOD.TRACE
  else if m = ('O' :: 'P' :: 'T' :: 'I' :: 'O' :: 'N' :: 'S' :: []) then some METHOD.OPTIONS
  else if m = ('C' :: 'O' :: 'N' :: 'N' :: 'E' :: 'C' :: 'T' :: []) then some METHOD.CONNECT
  else none

/-- Modelled from the spec: "If the URL begins with `http://`, strip scheme
and host, keeping only the path. URL normalization: empty path maps to a
default landing resource" (§4.1). -/
def normalizeUrl (u : List Char) : List Char :=
  let u1 :=
    if u.take 7 = ('h' :: 't' :: 't' :: 'p' :: ':' :: '/' :: '/' :: []) then
      (u.drop 7).dropWhile (fun c => c ≠ '/')
    else u
  if u1 = [] ∨ u1 = ['/'] then defaultLanding else u1

/-- Modelled from the spec: `http_conn::parse_request_line` (declared
http_conn.h:107, body not in the provided sources): "split on single spaces
into method, URL, version. Method token matched case-sensitively against the
enumerated verb set; anything else is a hard parse failure"; the URL is
normalized, the version string stored; "On success, transition to Header"
(§4.1). Returns `none` for the hard parse failure (`BAD_REQUEST`). -/
def parse_request_line (line : List Char) (st : HttpState) : Option HttpState :=
  match line.splitOn ' ' with
  | [m, u, v] =>
      match parseMethod m with
      | some meth =>
          some { st with method := meth, url := normalizeUrl u, version := v,
                         checkState := CHECK_STATE.CHECK_STATE_HEADER }
      | none => none
  | _ => none

/-- Decimal digits at the front of a value, as a number (`Content-Length`
parsed as a non-negative integer). -/
def digitsToNat (l : List Char) : Nat :=
  (l.takeWhile (fun c => c.isDigit)).foldl (fun n c => n * 10 + (c.toNat - 48)) 0

/-- Leading spaces removed from a header value. -/
def dropSpaces (l : List Char) : List Char := l.dropWhile (fun c => c = ' ')

/-- Modelled from the spec: header-line handling in `http_conn::parse_headers`
(declared http_conn.h:108, body not in the provided sources): lines are
"`Name: Value`"; recognized names are `Connection` (value `keep-alive`,
case-insensitive, sets the keep-alive flag), `Content-Length` (parsed as a
non-negative integer) and `Host` (stored verbatim); unrecognized names are
ignored (§4.1). -/
def applyHeader (st : HttpState) (line : List Char) : HttpState :=
  if line.take 11 = ('C' :: 'o' :: 'n' :: 'n' :: 'e' :: 'c' :: 't' :: 'i' :: 'o' :: 'n' :: ':' :: []) then
    if (dropSpaces (line.drop 11)).map Char.toLower =
        ('k' :: 'e' :: 'e' :: 'p' :: '-' :: 'a' :: 'l' :: 'i' :: 'v' :: 'e' :: []) then
      { st with linger := true }
    else st
  else if line.take 15 = ('C' :: 'o' :: 'n' :: 't' :: 'e' :: 'n' :: 't' :: '-' :: 'L' :: 'e' :: 'n' :: 'g' :: 't' :: 'h' :: ':' :: []) then
    { st with contentLength := digitsToNat (dropSpaces (line.drop 15)) }
  else if line.take 5 = ('H' :: 'o' :: 's' :: 't' :: ':' :: []) then
    { st with host := dropSpaces (line.drop 5) }
  else st

/-- Modelled from the spec: the driver loop `http_conn::process_read`
(declared http_conn.h:105, body not in the provided sources): "repeatedly
extract a line (or, in Content state, check buffer sufficiency) and dispatch
to the current state's handler, continuing while more complete lines remain
buffered; stops and returns need-more-data on LINE_OPEN, returns a terminal
classification otherwise" (§4.1). The empty header line transitions to
Content exactly when the method is POST with positive `Content-Length`,
otherwise the request is complete and is classified by resource resolution.
`doReq` abstracts `http_conn::do_request` (declared http_conn.h:110):
resource resolution as a function of the parsed fields; it is the same
function in every run, so the equivalence below holds for any resolver. -/
def process_read (doReq : HttpState → HTTP_CODE) (st : HttpState) (buf : List Char) :
    HttpState × HTTP_CODE :=
  match st.checkState with
  | CHECK_STATE.CHECK_STATE_CONTENT =>
      if parse_content buf.length st.pos st.contentLength = HTTP_CODE.GET_REQUEST then
        let stB := { st with body := (buf.drop st.pos).take st.contentLength }
        (stB, doReq stB)
      else (st, HTTP_CODE.NO_REQUEST)
  | CHECK_STATE.CHECK_STATE_REQUESTLINE =>
      match hscan : scanFrom (buf.drop st.pos) with
      | LineRes.lopen => (st, HTTP_CODE.NO_REQUEST)
      | LineRes.lbad => (st, HTTP_CODE.BAD_REQUEST)
      | LineRes.lok e =>
          match parse_request_line ((buf.drop st.pos).take e) st with
          | none => (st, HTTP_CODE.BAD_REQUEST)
          | some st1 => process_read doReq { st1 with pos := st.pos + e + 2 } buf
  | CHECK_STATE.CHECK_STATE_HEADER =>
      match hscan : scanFrom (buf.drop st.pos) with
      | LineRes.lopen => (st, HTTP_CODE.NO_REQUEST)
      | LineRes.lbad => (st, HTTP_CODE.BAD_REQUEST)
      | LineRes.lok e =>
          let line := (buf.drop st.pos).take e
          if line = [] then
            if st.method = METHOD.POST ∧ 0 < st.contentLength then
              process_read doReq
                { st with checkState := CHECK_STATE.CHECK_STATE_CONTENT,
                          pos := st.pos + e + 2 } buf
            else (st, doReq st)
          else
            process_read doReq { applyHeader st line with pos := st.pos + e + 2 } buf
termination_by buf.length - st.pos
decreasing_by
  all_goals
    have hb := scanFrom_lok_lt _ _ hscan
    simp only [List.length_drop] at hb
    omega

/-- `parse_content` succeeds exactly when the buffer is long enough. -/
theorem parse_content_iff (L p c : Nat) :
    parse_content L p c = HTTP_CODE.GET_REQUEST ↔ p + c ≤ L := by
  unfold parse_content
  by_cases h : p + c ≤ L
  · simp [h]
  · simp [h]

/-- Unfolding `process_read`: Content state, not enough body bytes. -/
theorem pr_content_open (doReq : HttpState → HTTP_CODE) (st : HttpState)
    (buf : List Char) (hcs : st.checkState = CHECK_STATE.CHECK_STATE_CONTENT)
    (hin : ¬ st.pos + st.contentLength ≤ buf.length) :
    process_read doReq st buf = (st, HTTP_CODE.NO_REQUEST) := by
  rw [process_read.eq_def, hcs]
  split
  · rw [if_neg (by rw [parse_content_iff]; exact hin)]
  · rename_i heq; exact absurd heq (by simp)
  · rename_i heq; exact absurd heq (by simp)

/-- Unfolding `process_read`: Content state, body complete. -/
theorem pr_content_done (doReq : HttpState → HTTP_CODE) (st : HttpState)
    (buf : List Char) (hcs : st.checkState = CHECK_STATE.CHECK_STATE_CONTENT)
    (hin : st.pos + st.contentLength ≤ buf.length) :
    process_read doReq st buf =
      ({ st with body := (buf.drop st.pos).take st.contentLength },
       doReq { st with body := (buf.drop st.pos).take st.contentLength }) := by
  rw [process_read.eq_def, hcs]
  split
  · rw [if_pos (by rw [parse_content_iff]; exact hin)]
  · rename_i heq; exact absurd heq (by simp)
  · rename_i heq; exact absurd heq (by simp)

/-- Unfolding `process_read`: request-line state, incomplete line. -/
theorem pr_req_open (doReq : HttpState → HTTP_CODE) (st : HttpState)
    (buf : List Char) (hcs : st.checkState = CHECK_STATE.CHECK_STATE_REQUESTLINE)
    (hscan : scanFrom (buf.drop st.pos) = LineRes.lopen) :
    process_read doReq st buf = (st, HTTP_CODE.NO_REQUEST) := by
  rw [process_read.eq_def, hcs]
  split
  · rename_i heq; exact absurd heq (by simp)
  · split
    · rfl
    · rename_i heq2
      exact absurd (hscan.symm.trans heq2) (by simp)
    · rename_i e heq2
      exact absurd (hscan.symm.trans heq2) (by simp)
  · rename_i heq; exact absurd heq (by simp)

/-- Unfolding `process_read`: request-line state, malformed line. -/
theorem pr_req_bad (doReq : HttpState → HTTP_CODE) (st : HttpState)
    (buf : List Char) (hcs : st.checkState = CHECK_STATE.CHECK_STATE_REQUESTLINE)
    (hscan : scanFrom (buf.drop st.pos) = LineRes.lbad) :
    process_read doReq st buf = (st, HTTP_CODE.BAD_REQUEST) := by
  rw [process_read.eq_def, hcs]
  split
  · rename_i heq; exact absurd heq (by simp)
  · split
    · rename_i heq2
      exact absurd (hscan.symm.trans heq2) (by simp)
    · rfl
    · rename_i e heq2
      exact absurd (hscan.symm.trans heq2) (by simp)
  · rename_i heq; exact absurd heq (by simp)

/-- Unfolding `process_read`: request-line state, complete line, parsed;
parsing continues in the Header state past the line. -/
theorem pr_req_line (doReq : HttpState → HTTP_CODE) (st : HttpState)
    (buf : List Char) (e : Nat) (st1 : HttpState)
    (hcs : st.checkState = CHECK_STATE.CHECK_STATE_REQUESTLINE)
    (hscan : scanFrom (buf.drop st.pos) = LineRes.lok e)
    (hparse : parse_request_line ((buf.drop st.pos).take e) st = some st1) :
    process_read doReq st buf =
      process_read doReq { st1 with pos := st.pos + e + 2 } buf := by
  rw [process_read.eq_def, hcs]
  split
  · rename_i heq; exact absurd heq (by simp)
  · split
    · rename_i heq2
      exact absurd (hscan.symm.trans heq2) (by simp)
    · rename_i heq2
      exact absurd (hscan.symm.trans heq2) (by simp)
    · rename_i e' heq2
      have he : e' = e := by
        have := hscan.symm.trans heq2
        injection this with h1
        exact h1.symm
      subst he
      split
      · rename_i heq3
        rw [hparse] at heq3
        exact absurd heq3 (by simp)
      · rename_i st1' heq3
        rw [hparse] at heq3
        have : st1 = st1' := by injection heq3
        subst this
        rfl
  · rename_i heq; exact absurd heq (by simp)

/-- Unfolding `process_read`: request-line state, complete line, hard parse
failure. -/
theorem pr_req_line_bad (doReq : HttpState → HTTP_CODE) (st : HttpState)
    (buf : List Char) (e : Nat)
    (hcs : st.checkState = CHECK_STATE.CHECK_STATE_REQUESTLINE)
    (hscan : scanFrom (buf.drop st.pos) = LineRes.lok e)
    (hparse : parse_request_line ((buf.drop st.pos).take e) st = none) :
    process_read doReq st buf = (st, HTTP_CODE.BAD_REQUEST) := by
  rw [process_read.eq_def, hcs]
  split
  · rename_i heq; exact absurd heq (by simp)
  · split
    · rename_i heq2
      exact absurd (hscan.symm.trans heq2) (by simp)
    · rename_i heq2
      exact absurd (hscan.symm.trans heq2) (by simp)
    · rename_i e' heq2
      have he : e' = e := by
        have := hscan.symm.trans heq2
        injection this with h1
        exact h1.symm
      subst he
      split
      · rfl
      · rename_i st1' heq3
        rw [hparse] at heq3
        exact absurd heq3 (by simp)
  · rename_i heq; exact absurd heq (by simp)

/-- Unfolding `process_read`: header state, incomplete line. -/
theorem pr_hdr_open (doReq : HttpState → HTTP_CODE) (st : HttpState)
    (buf : List Char) (hcs : st.checkState = CHECK_STATE.CHECK_STATE_HEADER)
    (hscan : scanFrom (buf.drop st.pos) = LineRes.lopen) :
    process_read doReq st buf = (st, HTTP_CODE.NO_REQUEST) := by
  rw [process_read.eq_def, hcs]
  split
  · rename_i heq; exact absurd heq (by simp)
  · rename_i heq; exact absurd heq (by simp)
  · split
    · rfl
    · rename_i heq2
      exact absurd (hscan.symm.trans heq2) (by simp)
    · rename_i e heq2
      exact absurd (hscan.symm.trans heq2) (by simp)

/-- Unfolding `process_read`: header state, malformed line. -/
theorem pr_hdr_bad (doReq : HttpState → HTTP_CODE) (st : HttpState)
    (buf : List Char) (hcs : st.checkState = CHECK_STATE.CHECK_STATE_HEADER)
    (hscan : scanFrom (buf.drop st.pos) = LineRes.lbad) :
    process_read doReq st buf = (st, HTTP_CODE.BAD_REQUEST) := by
  rw [process_read.eq_def, hcs]
  split
  · rename_i heq; exact absurd heq (by simp)
  · rename_i heq; exact absurd heq (by simp)
  · split
    · rename_i heq2
      exact absurd (hscan.symm.trans heq2) (by simp)
    · rfl
    · rename_i e heq2
      exact absurd (hscan.symm.trans heq2) (by simp)

/-- Unfolding `process_read`: header state, complete non-empty header line;
the header is applied and parsing continues past the line. -/
theorem pr_hdr_line (doReq : HttpState → HTTP_CODE) (st : HttpState)
    (buf : List Char) (e : Nat)
    (hcs : st.checkState = CHECK_STATE.CHECK_STATE_HEADER)
    (hscan : scanFrom (buf.drop st.pos) = LineRes.lok e)
    (hne : (buf.drop st.pos).take e ≠ []) :
    process_read doReq st buf =
      process_read doReq
        { applyHeader st ((buf.drop st.pos).take e) with pos := st.pos + e + 2 }
        buf := by
  rw [process_read.eq_def, hcs]
  split
  · rename_i heq; exact absurd heq (by simp)
  · rename_i heq; exact absurd heq (by simp)
  · split
    · rename_i heq2
      exact absurd (hscan.symm.trans heq2) (by simp)
    · rename_i heq2
      exact absurd (hscan.symm.trans heq2) (by simp)
    · rename_i e' heq2
      have he : e' = e := by
        have := hscan.symm.trans heq2
        injection this with h1
        exact h1.symm
      subst he
      rw [if_neg hne]

/-- Unfolding `process_read`: header state, empty line, POST with a body:
transition to Content. -/
theorem pr_hdr_blank_post (doReq : HttpState → HTTP_CODE) (st : HttpState)
    (buf : List Char) (e : Nat)
    (hcs : st.checkState = CHECK_STATE.CHECK_STATE_HEADER)
    (hscan : scanFrom (buf.drop st.pos) = LineRes.lok e)
    (hemp : (buf.drop st.pos).take e = [])
    (hpost : st.method = METHOD.POST ∧ 0 < st.contentLength) :
    process_read doReq st buf =
      process_read doReq
        { st with checkState := CHECK_STATE.CHECK_STATE_CONTENT,
                  pos := st.pos + e + 2 } buf := by
  rw [process_read.eq_def, hcs]
  split
  · rename_i heq; exact absurd heq (by simp)
  · rename_i heq; exact absurd heq (by simp)
  · split
    · rename_i heq2
      exact absurd (hscan.symm.trans heq2) (by simp)
    · rename_i heq2
      exact absurd (hscan.symm.trans heq2) (by simp)
    · rename_i e' heq2
      have he : e' = e := by
        have := hscan.symm.trans heq2
        injection this with h1
        exact h1.symm
      subst he
      rw [if_pos hemp, if_pos hpost]

/-- Unfolding `process_read`: header state, empty line, no body expected:
the request is complete and is classified. -/
theorem pr_hdr_blank_done (doReq : HttpState → HTTP_CODE) (st : HttpState)
    (buf : List Char) (e : Nat)
    (hcs : st.checkState = CHECK_STATE.CHECK_STATE_HEADER)
    (hscan : scanFrom (buf.drop st.pos) = LineRes.lok e)
    (hemp : (buf.drop st.pos).take e = [])
    (hpost : ¬(st.method = METHOD.POST ∧ 0 < st.contentLength)) :
    process_read doReq st buf = (st, doReq st) := by
  rw [process_read.eq_def, hcs]
  split
  · rename_i heq; exact absurd heq (by simp)
  · rename_i heq; exact absurd heq (by simp)
  · split
    · rename_i heq2
      exact absurd (hscan.symm.trans heq2) (by simp)
    · rename_i heq2
      exact absurd (hscan.symm.trans heq2) (by simp)
    · rename_i e' heq2
      have he : e' = e := by
        have := hscan.symm.trans heq2
        injection this with h1
        exact h1.symm
      subst he
      rw [if_pos hemp, if_neg hpost]

/-- A found line terminator keeps the new cursor inside the buffer. -/
theorem scan_newPos_le (buf : List Char) (p e : Nat) (hp : p ≤ buf.length)
    (h : scanFrom (buf.drop p) = LineRes.lok e) : p + e + 2 ≤ buf.length := by
  have := scanFrom_lok_lt _ _ h
  simp only [List.length_drop] at this
  omega

/-- Dropping inside the original buffer commutes with appending new bytes. -/
theorem drop_append_ext (p : Nat) (buf ext : List Char) (hp : p ≤ buf.length) :
    (buf ++ ext).drop p = buf.drop p ++ ext :=
  List.drop_append_of_le_length hp

/-- A line terminator found in the buffer is still found, at the same place,
after more bytes arrive. -/
theorem scan_ext (buf ext : List Char) (p e : Nat) (hp : p ≤ buf.length)
    (h : scanFrom (buf.drop p) = LineRes.lok e) :
    scanFrom ((buf ++ ext).drop p) = LineRes.lok e := by
  rw [drop_append_ext p buf ext hp]
  exact scanFrom_append_lok _ _ _ h

/-- The extracted line is unchanged after more bytes arrive. -/
theorem line_ext (buf ext : List Char) (p e : Nat) (hp : p ≤ buf.length)
    (h : scanFrom (buf.drop p) = LineRes.lok e) :
    ((buf ++ ext).drop p).take e = (buf.drop p).take e := by
  rw [drop_append_ext p buf ext hp]
  have hb := scanFrom_lok_lt _ _ h
  exact List.take_append_of_le_length (by omega)

/-- The parser's cursor stays inside the buffer. -/
theorem process_read_pos_le (doReq : HttpState → HTTP_CODE) (st : HttpState)
    (buf : List Char) (hpos : st.pos ≤ buf.length) :
    (process_read doReq st buf).1.pos ≤ buf.length := by
  refine process_read.induct doReq
    (fun st buf =>
      st.pos ≤ buf.length → (process_read doReq st buf).1.pos ≤ buf.length)
    ?_ ?_ ?_ ?_ ?_ ?_ ?_ ?_ ?_ ?_ ?_ st buf hpos
  · intro st buf hcs hpc hp
    rw [pr_content_done doReq st buf hcs ((parse_content_iff _ _ _).mp hpc)]
    exact hp
  · intro st buf hcs hpc hp
    rw [pr_content_open doReq st buf hcs (fun hc => hpc ((parse_content_iff _ _ _).mpr hc))]
    exact hp
  · intro st buf hcs hscan hp
    rw [pr_req_open doReq st buf hcs hscan]
    exact hp
  · intro st buf hcs hscan hp
    rw [pr_req_bad doReq st buf hcs hscan]
    exact hp
  · intro st buf hcs e hscan hparse hp
    rw [pr_req_line_bad doReq st buf e hcs hscan hparse]
    exact hp
  · intro st buf hcs e hscan st1 hparse ih hp
    rw [pr_req_line doReq st buf e st1 hcs hscan hparse]
    exact ih (scan_newPos_le buf st.pos e hp hscan)
  · intro st buf hcs hscan hp
    rw [pr_hdr_open doReq st buf hcs hscan]
    exact hp
  · intro st buf hcs hscan hp
    rw [pr_hdr_bad doReq st buf hcs hscan]
    exact hp
  · intro st buf hcs e hscan line hemp hpost ih hp
    rw [pr_hdr_blank_post doReq st buf e hcs hscan hemp hpost]
    exact ih (scan_newPos_le buf st.pos e hp hscan)
  · intro st buf hcs e hscan line hemp hpost hp
    rw [pr_hdr_blank_done doReq st buf e hcs hscan hemp hpost]
    exact hp
  · intro st buf hcs e hscan line hne ih hp
    rw [pr_hdr_line doReq st buf e hcs hscan hne]
    exact ih (scan_newPos_le buf st.pos e hp hscan)

/-- Resumability of the parser: when a parse over `buf` reports need-more-data
(`NO_REQUEST`), continuing from the resulting state on the extended buffer
`buf ++ ext` gives exactly the same outcome as re-parsing the extended buffer
from the original state. -/
theorem process_read_resume (doReq : HttpState → HTTP_CODE) (st : HttpState)
    (buf : List Char) (hpos : st.pos ≤ buf.length) (st' : HttpState)
    (hno : process_read doReq st buf = (st', HTTP_CODE.NO_REQUEST))
    (ext : List Char) :
    process_read doReq st' (buf ++ ext) = process_read doReq st (buf ++ ext) := by
  refine process_read.induct doReq
    (fun st buf =>
      st.pos ≤ buf.length →
      ∀ st', process_read doReq st buf = (st', HTTP_CODE.NO_REQUEST) →
      ∀ ext, process_read doReq st' (buf ++ ext) =
        process_read doReq st (buf ++ ext))
    ?_ ?_ ?_ ?_ ?_ ?_ ?_ ?_ ?_ ?_ ?_ st buf hpos st' hno ext
  · -- Content, enough bytes: the recorded body does not change when more
    -- bytes arrive, so both sides classify the same completed state.
    intro st buf hcs hpc hp st' hno ext
    have hin := (parse_content_iff _ _ _).mp hpc
    rw [pr_content_done doReq st buf hcs hin] at hno
    injection hno with h1 h2
    subst h1
    have hin2 : st.pos + st.contentLength ≤ (buf ++ ext).length := by
      simp only [List.length_append]
      omega
    rw [pr_content_done doReq st (buf ++ ext) hcs hin2]
    rw [pr_content_done doReq _ (buf ++ ext) (by exact hcs) (by exact hin2)]
  · intro st buf hcs hpc hp st' hno ext
    rw [pr_content_open doReq st buf hcs
      (fun hc => hpc ((parse_content_iff _ _ _).mpr hc))] at hno
    injection hno with h1 h2
    subst h1
    rfl
  · intro st buf hcs hscan hp st' hno ext
    rw [pr_req_open doReq st buf hcs hscan] at hno
    injection hno with h1 h2
    subst h1
    rfl
  · intro st buf hcs hscan hp st' hno ext
    rw [pr_req_bad doReq st buf hcs hscan] at hno
    injection hno with h1 h2
    exact absurd h2 (by simp)
  · intro st buf hcs e hscan hparse hp st' hno ext
    rw [pr_req_line_bad doReq st buf e hcs hscan hparse] at hno
    injection hno with h1 h2
    exact absurd h2 (by simp)
  · -- Request line parsed: both sides continue from the same Header state.
    intro st buf hcs e hscan st1 hparse ih hp st' hno ext
    rw [pr_req_line doReq st buf e st1 hcs hscan hparse] at hno
    have hp2 := scan_newPos_le buf st.pos e hp hscan
    have hstep := ih (by exact hp2) st' hno ext
    rw [hstep]
    have hscan2 := scan_ext buf ext st.pos e hp hscan
    have hline := line_ext buf ext st.pos e hp hscan
    rw [pr_req_line doReq st (buf ++ ext) e st1 hcs hscan2 (by rw [hline]; exact hparse)]
  · intro st buf hcs hscan hp st' hno ext
    rw [pr_hdr_open doReq st buf hcs hscan] at hno
    injection hno with h1 h2
    subst h1
    rfl
  · intro st buf hcs hscan hp st' hno ext
    rw [pr_hdr_bad doReq st buf hcs hscan] at hno
    injection hno with h1 h2
    exact absurd h2 (by simp)
  · -- Blank line into Content: both sides continue from the same state.
    intro st buf hcs e hscan line hemp hpost ih hp st' hno ext
    rw [pr_hdr_blank_post doReq st buf e hcs hscan hemp hpost] at hno
    have hp2 := scan_newPos_le buf st.pos e hp hscan
    have hstep := ih (by exact hp2) st' hno ext
    rw [hstep]
    have hscan2 := scan_ext buf ext st.pos e hp hscan
    have hemp2 : ((buf ++ ext).drop st.pos).take e = [] := by
      rw [line_ext buf ext st.pos e hp hscan]
      exact hemp
    rw [pr_hdr_blank_post doReq st (buf ++ ext) e hcs hscan2 hemp2 hpost]
  · -- Blank line, request complete: the result state is the input state, and
    -- NO_REQUEST here means the resolver classified it so; trivial.
    intro st buf hcs e hscan line hemp hpost hp st' hno ext
    rw [pr_hdr_blank_done doReq st buf e hcs hscan hemp hpost] at hno
    injection hno with h1 h2
    subst h1
    rfl
  · -- Ordinary header line: both sides continue from the same state.
    intro st buf hcs e hscan line hne ih hp st' hno ext
    rw [pr_hdr_line doReq st buf e hcs hscan hne] at hno
    have hp2 := scan_newPos_le buf st.pos e hp hscan
    have hstep := ih (by exact hp2) st' hno ext
    rw [hstep]
    have hscan2 := scan_ext buf ext st.pos e hp hscan
    have hline := line_ext buf ext st.pos e hp hscan
    rw [pr_hdr_line doReq st (buf ++ ext) e hcs hscan2 (by rw [hline]; exact hne)]
    rw [hline]

/-- A line's bytes contain no terminator characters. -/
def noTerm (l : List Char) : Prop := ∀ c ∈ l, c ≠ '\r' ∧ c ≠ '\n'

/-- The line terminator. -/
def CRLF : List Char := ['\r', '\n']

/-- Header lines joined, each terminated by CRLF. -/
def joinLines : List (List Char) → List Char
  | [] => []
  | h :: t => h ++ CRLF ++ joinLines t

/-- Scanning terminator-free bytes exhausts the buffer. -/
theorem scanFrom_noTerm (l : List Char) (h : noTerm l) : scanFrom l = LineRes.lopen := by
  induction l with
  | nil => rfl
  | cons c rest ih =>
      have hc := h c (by simp)
      have hrest : noTerm rest := fun x hx => h x (by simp [hx])
      simp only [scanFrom, hc.1, hc.2, if_false]
      rw [ih hrest]

/-- Scanning terminator-free bytes followed by a lone `\r` still exhausts the
buffer (the scan must wait for the `\n`). -/
theorem scanFrom_noTerm_cr (l : List Char) (h : noTerm l) :
    scanFrom (l ++ ['\r']) = LineRes.lopen := by
  induction l with
  | nil => rfl
  | cons c rest ih =>
      have hc := h c (by simp)
      have hrest : noTerm rest := fun x hx => h x (by simp [hx])
      rw [List.cons_append]
      simp only [scanFrom, hc.1, hc.2, if_false]
      rw [ih hrest]

/-- Scanning a terminator-free line followed by CRLF finds the terminator
exactly at the end of the line. -/
theorem scanFrom_line (l r : List Char) (h : noTerm l) :
    scanFrom (l ++ CRLF ++ r) = LineRes.lok l.length := by
  induction l with
  | nil => rfl
  | cons c rest ih =>
      have hc := h c (by simp)
      have hrest : noTerm rest := fun x hx => h x (by simp [hx])
      simp only [List.cons_append]
      simp only [scanFrom, hc.1, hc.2, if_false]
      rw [ih hrest]
      simp

/-- Scanning any proper prefix of a terminator-free line plus its CRLF
exhausts the buffer. -/
theorem scanFrom_proper_prefix (l Q rest' : List Char) (hn : noTerm l)
    (heq : Q ++ rest' = l ++ CRLF) (hne : rest' ≠ []) :
    scanFrom Q = LineRes.lopen := by
  have hlen : Q.length + rest'.length = l.length + 2 := by
    have := congrArg List.length heq
    simpa [CRLF] using this
  have hrlen : 1 ≤ rest'.length := by
    cases rest' with
    | nil => exact absurd rfl hne
    | cons a b => simp
  have hQ : Q = (l ++ CRLF).take Q.length := by
    rw [← heq, List.take_left']
    rfl
  by_cases hle : Q.length ≤ l.length
  · have hQ2 : Q = l.take Q.length := by
      conv_lhs => rw [hQ]
      rw [List.take_append_of_le_length hle]
    refine scanFrom_noTerm Q (fun c hc => hn c ?_)
    rw [hQ2] at hc
    exact List.take_subset _ _ hc
  · have hQl : Q.length = l.length + 1 := by omega
    have hQ2 : Q = l ++ ['\r'] := by
      conv_lhs => rw [hQ]
      rw [hQl, List.take_append]
      simp [CRLF]
    rw [hQ2]
    exact scanFrom_noTerm_cr l hn

/-- `applyHeader` only updates the parsed header fields: the state machine
position, check state and method are untouched. -/
theorem applyHeader_fields (st : HttpState) (l : List Char) :
    (applyHeader st l).checkState = st.checkState ∧
    (applyHeader st l).pos = st.pos ∧
    (applyHeader st l).method = st.method := by
  unfold applyHeader
  split
  · split
    · exact ⟨rfl, rfl, rfl⟩
    · exact ⟨rfl, rfl, rfl⟩
  · split
    · exact ⟨rfl, rfl, rfl⟩
    · split
      · exact ⟨rfl, rfl, rfl⟩
      · exact ⟨rfl, rfl, rfl⟩

/-- The header fold step performed by `process_read` for one complete header
line: the header is applied and the cursor moves past the line and its
terminator. -/
def stepHeader (st : HttpState) (h : List Char) : HttpState :=
  { applyHeader st h with pos := st.pos + h.length + 2 }

/-- The parser state after consuming a list of complete header lines. -/
def afterHeaders (st : HttpState) (hs : List (List Char)) : HttpState :=
  hs.foldl stepHeader st

/-- Consuming headers does not change the check state and advances the cursor
by exactly the length of the joined header block. -/
theorem afterHeaders_fields (hs : List (List Char)) (st : HttpState) :
    (afterHeaders st hs).checkState = st.checkState ∧
    (afterHeaders st hs).pos = st.pos + (joinLines hs).length := by
  induction hs generalizing st with
  | nil => exact ⟨rfl, by simp [afterHeaders, joinLines]⟩
  | cons h t ih =>
      have hstep := applyHeader_fields st h
      have := ih (stepHeader st h)
      refine ⟨?_, ?_⟩
      · rw [show afterHeaders st (h :: t) = afterHeaders (stepHeader st h) t from rfl]
        rw [this.1]
        exact hstep.1
      · rw [show afterHeaders st (h :: t) = afterHeaders (stepHeader st h) t from rfl]
        rw [this.2]
        simp only [stepHeader, joinLines, List.length_append, CRLF]
        simp
        omega

/-- `parse_request_line` transitions the state machine to the Header state. -/
theorem parse_request_line_checkState (line : List Char) (st st1 : HttpState)
    (h : parse_request_line line st = some st1) :
    st1.checkState = CHECK_STATE.CHECK_STATE_HEADER := by
  unfold parse_request_line at h
  split at h
  · split at h
    · injection h with h1
      rw [← h1]
    · exact absurd h (by simp)
  · exact absurd h (by simp)

/-- A truncation of a line-plus-CRLF block, cut before the final `\n`, scans
to LINE_OPEN. -/
theorem scanFrom_take_open (l r : List Char) (n : Nat) (hn : noTerm l)
    (hlt : n ≤ l.length + 1) :
    scanFrom ((l ++ CRLF ++ r).take n) = LineRes.lopen := by
  have hA : (l ++ CRLF ++ r).take n = (l ++ CRLF).take n :=
    List.take_append_of_le_length (by simp [CRLF]; omega)
  rw [hA]
  refine scanFrom_proper_prefix l ((l ++ CRLF).take n) ((l ++ CRLF).drop n) hn ?_ ?_
  · exact List.take_append_drop n (l ++ CRLF)
  · intro hcon
    have hlen : ((l ++ CRLF).drop n).length = l.length + 2 - n := by simp [CRLF]
    rw [hcon] at hlen
    simp at hlen
    omega

/-- While the buffer holds only a proper prefix of the remaining header block
(headers plus the final blank line), the parser reports need-more-data. -/
theorem hdr_prefix_no_request (doReq : HttpState → HTTP_CODE) (hs : List (List Char)) :
    ∀ (st : HttpState) (buf Q rest' : List Char),
      st.checkState = CHECK_STATE.CHECK_STATE_HEADER →
      (∀ h ∈ hs, noTerm h ∧ h ≠ []) →
      buf.drop st.pos = Q →
      Q ++ rest' = joinLines hs ++ CRLF →
      rest' ≠ [] →
      (process_read doReq st buf).2 = HTTP_CODE.NO_REQUEST := by
  induction hs with
  | nil =>
      intro st buf Q rest' hcs hall hdrop heq hne
      have hscan : scanFrom (buf.drop st.pos) = LineRes.lopen := by
        rw [hdrop]
        refine scanFrom_proper_prefix [] Q rest' ?_ ?_ hne
        · intro c hc
          simp at hc
        · simpa [joinLines] using heq
      rw [pr_hdr_open doReq st buf hcs hscan]
  | cons h t ih =>
      intro st buf Q rest' hcs hall hdrop heq hne
      have hh := hall h (by simp)
      have hfull : joinLines (h :: t) ++ CRLF = (h ++ CRLF) ++ (joinLines t ++ CRLF) := by
        simp [joinLines, List.append_assoc]
      rw [hfull] at heq
      have hlen : Q.length + rest'.length =
          (h.length + 2) + ((joinLines t).length + 2) := by
        have := congrArg List.length heq
        simp [CRLF] at this
        omega
      have hrlen : 1 ≤ rest'.length := by
        cases rest' with
        | nil => exact absurd rfl hne
        | cons a b => simp
      by_cases hle : Q.length ≤ h.length + 1
      · -- the cut is inside `h ++ CRLF`
        have hQ : Q = ((h ++ CRLF) ++ (joinLines t ++ CRLF)).take Q.length := by
          conv_lhs => rw [← List.take_left Q rest']
          rw [heq]
        have hscan : scanFrom (buf.drop st.pos) = LineRes.lopen := by
          rw [hdrop, hQ]
          exact scanFrom_take_open h (joinLines t ++ CRLF) Q.length hh.1 hle
        rw [pr_hdr_open doReq st buf hcs hscan]
      · -- the cut is past `h ++ CRLF`: consume the header line and recurse
        have hgt : h.length + 2 ≤ Q.length := by omega
        have hQ : Q = ((h ++ CRLF) ++ (joinLines t ++ CRLF)).take Q.length := by
          conv_lhs => rw [← List.take_left Q rest']
          rw [heq]
        obtain ⟨j, hjn⟩ : ∃ j, Q.length = (h ++ CRLF).length + j :=
          ⟨Q.length - (h.length + 2), by simp [CRLF]; omega⟩
        have hQ2 : Q = (h ++ CRLF) ++ (joinLines t ++ CRLF).take j := by
          rw [hQ, hjn, List.take_append]
        have hQ' : ((joinLines t ++ CRLF).take j) ++ rest' =
            joinLines t ++ CRLF := by
          have h2 := heq
          rw [hQ2, List.append_assoc] at h2
          exact List.append_cancel_left h2
        have hscan : scanFrom (buf.drop st.pos) = LineRes.lok h.length := by
          rw [hdrop, hQ2]
          exact scanFrom_line h _ hh.1
        have hline : (buf.drop st.pos).take h.length = h := by
          rw [hdrop, hQ2, List.append_assoc]
          rw [List.take_append_of_le_length (le_refl h.length)]
          exact List.take_length h
        have hne2 : (buf.drop st.pos).take h.length ≠ [] := by
          rw [hline]
          exact hh.2
        rw [pr_hdr_line doReq st buf h.length hcs hscan hne2]
        rw [hline]
        refine ih { applyHeader st h with pos := st.pos + h.length + 2 } buf
          ((joinLines t ++ CRLF).take j) rest'
          ?_ (fun x hx => hall x (by simp [hx])) ?_ hQ' hne
        · have := applyHeader_fields st h
          simp only [HttpState.checkState]
          rw [show ({ applyHeader st h with pos := st.pos + h.length + 2 } : HttpState).checkState =
            (applyHeader st h).checkState from rfl]
          rw [this.1]
          exact hcs
        · rw [show ({ applyHeader st h with pos := st.pos + h.length + 2 } : HttpState).pos =
            st.pos + h.length + 2 from rfl]
          have h1 : buf.drop (st.pos + h.length + 2) = (buf.drop st.pos).drop (h.length + 2) := by
            rw [List.drop_drop]
            congr 1
          rw [h1, hdrop, hQ2]
          exact List.drop_left' (by simp [CRLF])

/-- Running the parser over the complete remaining header block: all header
lines are folded into the state and the blank line is consumed; for a POST
with a body the parser proceeds to the Content state positioned at the body,
otherwise the request is complete and is classified by the resolver. -/
theorem hdr_run (doReq : HttpState → HTTP_CODE) (hs : List (List Char)) :
    ∀ (st : HttpState) (buf tail : List Char),
      st.checkState = CHECK_STATE.CHECK_STATE_HEADER →
      (∀ h ∈ hs, noTerm h ∧ h ≠ []) →
      buf.drop st.pos = joinLines hs ++ CRLF ++ tail →
      (((afterHeaders st hs).method = METHOD.POST ∧
          0 < (afterHeaders st hs).contentLength) →
        process_read doReq st buf =
          process_read doReq
            { afterHeaders st hs with
                checkState := CHECK_STATE.CHECK_STATE_CONTENT,
                pos := (afterHeaders st hs).pos + 2 } buf) ∧
      (¬((afterHeaders st hs).method = METHOD.POST ∧
          0 < (afterHeaders st hs).contentLength) →
        process_read doReq st buf =
          (afterHeaders st hs, doReq (afterHeaders st hs))) := by
  induction hs with
  | nil =>
      intro st buf tail hcs hall hdrop
      have hdrop2 : buf.drop st.pos = [] ++ CRLF ++ tail := by
        simpa [joinLines] using hdrop
      have hscan : scanFrom (buf.drop st.pos) = LineRes.lok 0 := by
        rw [hdrop2]
        exact scanFrom_line [] tail (by intro c hc; simp at hc)
      have hemp : (buf.drop st.pos).take 0 = [] := by simp
      constructor
      · intro hpost
        exact pr_hdr_blank_post doReq st buf 0 hcs hscan hemp hpost
      · intro hpost
        exact pr_hdr_blank_done doReq st buf 0 hcs hscan hemp hpost
  | cons h t ih =>
      intro st buf tail hcs hall hdrop
      have hh := hall h (by simp)
      have hdec : joinLines (h :: t) ++ CRLF ++ tail =
          h ++ CRLF ++ (joinLines t ++ CRLF ++ tail) := by
        simp [joinLines, List.append_assoc]
      rw [hdec] at hdrop
      have hscan : scanFrom (buf.drop st.pos) = LineRes.lok h.length := by
        rw [hdrop]
        exact scanFrom_line h _ hh.1
      have hline : (buf.drop st.pos).take h.length = h := by
        rw [hdrop, List.append_assoc]
        rw [List.take_append_of_le_length (le_refl h.length)]
        exact List.take_length h
      have hne2 : (buf.drop st.pos).take h.length ≠ [] := by
        rw [hline]
        exact hh.2
      have hcs2 : ({ applyHeader st h with pos := st.pos + h.length + 2 } :
          HttpState).checkState = CHECK_STATE.CHECK_STATE_HEADER := by
        rw [show ({ applyHeader st h with pos := st.pos + h.length + 2 } :
          HttpState).checkState = (applyHeader st h).checkState from rfl]
        rw [(applyHeader_fields st h).1]
        exact hcs
      have hdrop2 : buf.drop ({ applyHeader st h with
          pos := st.pos + h.length + 2 } : HttpState).pos =
          joinLines t ++ CRLF ++ tail := by
        rw [show ({ applyHeader st h with pos := st.pos + h.length + 2 } :
          HttpState).pos = st.pos + h.length + 2 from rfl]
        have h1 : buf.drop (st.pos + h.length + 2) =
            (buf.drop st.pos).drop (h.length + 2) := by
          rw [List.drop_drop]
          congr 1
        rw [h1, hdrop]
        exact List.drop_left' (by simp [CRLF])
      rw [pr_hdr_line doReq st buf h.length hcs hscan hne2]
      rw [hline]
      exact ih { applyHeader st h with pos := st.pos + h.length + 2 } buf tail
        hcs2 (fun x hx => hall x (by simp [hx])) hdrop2

/-- A well-formed request (the shapes of spec §8): a parsable request line, a
block of non-empty terminator-free header lines ended by the blank line, and a
body of exactly `Content-Length` bytes exactly when the parsed request is a
POST with positive `Content-Length` (no body otherwise). `st1` is the state
after the request line; the header fold starts with the cursor just past the
request line. -/
def WellFormedRequest (R : List Char) : Prop :=
  ∃ rl hs body st1,
    R = rl ++ CRLF ++ joinLines hs ++ CRLF ++ body ∧
    noTerm rl ∧
    (∀ h ∈ hs, noTerm h ∧ h ≠ []) ∧
    parse_request_line rl initState = some st1 ∧
    (((afterHeaders { st1 with pos := rl.length + 2 } hs).method = METHOD.POST ∧
        0 < (afterHeaders { st1 with pos := rl.length + 2 } hs).contentLength) →
      body.length = (afterHeaders { st1 with pos := rl.length + 2 } hs).contentLength) ∧
    (¬((afterHeaders { st1 with pos := rl.length + 2 } hs).method = METHOD.POST ∧
        0 < (afterHeaders { st1 with pos := rl.length + 2 } hs).contentLength) →
      body = [])

/-- Every proper prefix of a well-formed request parses, from a fresh
connection state, to need-more-data. -/
theorem prefix_no_request (doReq : HttpState → HTTP_CODE) (R : List Char)
    (hwf : WellFormedRequest R) (k : Nat) (hk : k < R.length) :
    (process_read doReq initState (R.take k)).2 = HTTP_CODE.NO_REQUEST := by
  obtain ⟨rl, hs, body, st1, hR, hnt, hall, hparse, hbody1, hbody2⟩ := hwf
  have hR2 : R = (rl ++ CRLF) ++ ((joinLines hs ++ CRLF) ++ body) := by
    rw [hR]
    simp [List.append_assoc]
  have hRlen : R.length = rl.length + 2 + ((joinLines hs).length + 2 + body.length) := by
    rw [hR2]
    simp [CRLF]
    omega
  by_cases hcase : k ≤ rl.length + 1
  · -- the cut is inside the request line or its terminator
    have hscan : scanFrom (R.take k) = LineRes.lopen := by
      rw [hR2]
      exact scanFrom_take_open rl ((joinLines hs ++ CRLF) ++ body) k hnt hcase
    rw [pr_req_open doReq initState (R.take k) rfl hscan]
  · push_neg at hcase
    obtain ⟨j, hkj⟩ : ∃ j, k = (rl ++ CRLF).length + j :=
      ⟨k - (rl.length + 2), by simp [CRLF]; omega⟩
    have hkj2 : k = rl.length + 2 + j := by
      rw [hkj]
      simp [CRLF]
    have hP : R.take k = (rl ++ CRLF) ++ ((joinLines hs ++ CRLF) ++ body).take j := by
      rw [hR2, hkj, List.take_append]
    have hscan : scanFrom (R.take k) = LineRes.lok rl.length := by
      rw [hP]
      exact scanFrom_line rl _ hnt
    have hline : (R.take k).take rl.length = rl := by
      rw [hP, List.append_assoc, List.take_append_of_le_length (le_refl rl.length)]
      exact List.take_length rl
    have hparse2 : parse_request_line (((R.take k).drop initState.pos).take rl.length)
        initState = some st1 := by
      rw [show ((R.take k).drop initState.pos) = R.take k from rfl, hline]
      exact hparse
    rw [pr_req_line doReq initState (R.take k) rl.length st1 rfl hscan hparse2]
    have hst2 : ({ st1 with pos := initState.pos + rl.length + 2 } : HttpState) =
        { st1 with pos := rl.length + 2 } := by
      have h0 : initState.pos + rl.length + 2 = rl.length + 2 := by
        simp [initState]
      rw [h0]
    rw [hst2]
    have hcs2 : ({ st1 with pos := rl.length + 2 } : HttpState).checkState =
        CHECK_STATE.CHECK_STATE_HEADER := by
      rw [show ({ st1 with pos := rl.length + 2 } : HttpState).checkState =
        st1.checkState from rfl]
      exact parse_request_line_checkState _ _ _ hparse
    have hdropP : (R.take k).drop (rl.length + 2) =
        ((joinLines hs ++ CRLF) ++ body).take j := by
      rw [hP]
      exact List.drop_left' (by simp [CRLF])
    by_cases hj : j ≤ (joinLines hs).length + 1
    · -- the cut is inside the header block
      have hQ : ((joinLines hs ++ CRLF) ++ body).take j = (joinLines hs ++ CRLF).take j :=
        List.take_append_of_le_length (by simp [CRLF]; omega)
      refine hdr_prefix_no_request doReq hs { st1 with pos := rl.length + 2 } (R.take k)
        ((joinLines hs ++ CRLF).take j) ((joinLines hs ++ CRLF).drop j)
        hcs2 hall ?_ (List.take_append_drop j _) ?_
      · rw [show ({ st1 with pos := rl.length + 2 } : HttpState).pos =
          rl.length + 2 from rfl]
        rw [hdropP, hQ]
      · intro hcon
        have hlen2 : ((joinLines hs ++ CRLF).drop j).length =
            (joinLines hs).length + 2 - j := by
          simp [CRLF]
        rw [hcon] at hlen2
        simp at hlen2
        omega
    · -- the cut is inside the body: the request must be a POST with a body
      push_neg at hj
      obtain ⟨j2, hj2⟩ : ∃ j2, j = (joinLines hs ++ CRLF).length + j2 :=
        ⟨j - ((joinLines hs).length + 2), by simp [CRLF]; omega⟩
      have hj2b : j = (joinLines hs).length + 2 + j2 := by
        rw [hj2]
        simp [CRLF]
      have hQ : ((joinLines hs ++ CRLF) ++ body).take j =
          (joinLines hs ++ CRLF) ++ body.take j2 := by
        rw [hj2, List.take_append]
      have hj2lt : j2 < body.length := by omega
      have hbody_ne : body ≠ [] := by
        intro hcon
        rw [hcon] at hj2lt
        simp at hj2lt
      have hpost : (afterHeaders { st1 with pos := rl.length + 2 } hs).method =
          METHOD.POST ∧
          0 < (afterHeaders { st1 with pos := rl.length + 2 } hs).contentLength := by
        by_contra hcon
        exact hbody_ne (hbody2 hcon)
      have hCL : body.length =
          (afterHeaders { st1 with pos := rl.length + 2 } hs).contentLength :=
        hbody1 hpost
      have hdropH : (R.take k).drop ({ st1 with pos := rl.length + 2 } :
          HttpState).pos = joinLines hs ++ CRLF ++ body.take j2 := by
        rw [show ({ st1 with pos := rl.length + 2 } : HttpState).pos =
          rl.length + 2 from rfl]
        rw [hdropP, hQ]
      have hrun := hdr_run doReq hs { st1 with pos := rl.length + 2 } (R.take k)
        (body.take j2) hcs2 hall hdropH
      rw [hrun.1 hpost]
      have hposH : (afterHeaders { st1 with pos := rl.length + 2 } hs).pos =
          rl.length + 2 + (joinLines hs).length := by
        have := (afterHeaders_fields hs { st1 with pos := rl.length + 2 }).2
        rw [this]
      have hlenP : (R.take k).length = k := by
        rw [List.length_take]
        omega
      rw [pr_content_open doReq _ (R.take k) rfl ?_]
      rw [show ({ afterHeaders { st1 with pos := rl.length + 2 } hs with
            checkState := CHECK_STATE.CHECK_STATE_CONTENT,
            pos := (afterHeaders { st1 with pos := rl.length + 2 } hs).pos + 2 } :
          HttpState).pos =
          (afterHeaders { st1 with pos := rl.length + 2 } hs).pos + 2 from rfl]
      rw [show ({ afterHeaders { st1 with pos := rl.length + 2 } hs with
            checkState := CHECK_STATE.CHECK_STATE_CONTENT,
            pos := (afterHeaders { st1 with pos := rl.length + 2 } hs).pos + 2 } :
          HttpState).contentLength =
          (afterHeaders { st1 with pos := rl.length + 2 } hs).contentLength from rfl]
      rw [hposH, ← hCL, hlenP]
      omega

/-- Incremental delivery: starting from parser state `st` with `consumed`
bytes already buffered, the remaining bytes arrive one at a time and the
parser runs after each byte (as the worker does after each reactor
notification), threading the connection's parser state; returns the final
state and the classification produced after each byte. -/
def feedBytes (doReq : HttpState → HTTP_CODE) (st : HttpState)
    (consumed : List Char) : List Char → HttpState × List HTTP_CODE
  | [] => (st, [])
  | b :: rest =>
      let r := process_read doReq st (consumed ++ [b])
      let rr := feedBytes doReq r.1 (consumed ++ [b]) rest
      (rr.1, r.2 :: rr.2)

/-- Byte-at-a-time feeding over a remaining suffix whose proper prefixes all
classify as need-more-data produces NO_REQUEST at every step but the last,
and at the last step exactly the batch classification of the whole buffer. -/
theorem feedBytes_wf (doReq : HttpState → HTTP_CODE) :
    ∀ (rest consumed : List Char) (st : HttpState),
      rest ≠ [] →
      st.pos ≤ consumed.length →
      (∀ ext, process_read doReq st (consumed ++ ext) =
        process_read doReq initState (consumed ++ ext)) →
      (∀ k, consumed.length < k → k < consumed.length + rest.length →
        (process_read doReq initState ((consumed ++ rest).take k)).2 =
          HTTP_CODE.NO_REQUEST) →
      (feedBytes doReq st consumed rest).2 =
        List.replicate (rest.length - 1) HTTP_CODE.NO_REQUEST ++
          [(process_read doReq initState (consumed ++ rest)).2] := by
  intro rest
  induction rest with
  | nil =>
      intro consumed st hne
      exact absurd rfl hne
  | cons b rest2 ih =>
      intro consumed st hne hpos hagree hpref
      have hhead : process_read doReq st (consumed ++ [b]) =
          process_read doReq initState (consumed ++ [b]) := hagree [b]
      cases rest2 with
      | nil =>
          have hunfold : (feedBytes doReq st consumed [b]).2 =
              [(process_read doReq st (consumed ++ [b])).2] := rfl
          rw [hunfold, hhead]
          simp
      | cons c rest3 =>
          have htake : (consumed ++ b :: c :: rest3).take (consumed.length + 1) =
              consumed ++ [b] := by
            rw [List.take_append]
            rfl
          have hcode : (process_read doReq initState (consumed ++ [b])).2 =
              HTTP_CODE.NO_REQUEST := by
            have hb2 : consumed.length + 1 < consumed.length + (b :: c :: rest3).length := by
              simp
            have := hpref (consumed.length + 1) (by omega) hb2
            rwa [htake] at this
          have hr : process_read doReq initState (consumed ++ [b]) =
              ((process_read doReq initState (consumed ++ [b])).1,
               HTTP_CODE.NO_REQUEST) := by
            rw [← hcode]
          have hagree2 : ∀ ext, process_read doReq
              (process_read doReq initState (consumed ++ [b])).1
              ((consumed ++ [b]) ++ ext) =
              process_read doReq initState ((consumed ++ [b]) ++ ext) :=
            fun ext => process_read_resume doReq initState (consumed ++ [b])
              (Nat.zero_le _) _ hr ext
          have hpos2 : (process_read doReq initState (consumed ++ [b])).1.pos ≤
              (consumed ++ [b]).length :=
            process_read_pos_le doReq initState (consumed ++ [b]) (Nat.zero_le _)
          have hpref2 : ∀ k, (consumed ++ [b]).length < k →
              k < (consumed ++ [b]).length + (c :: rest3).length →
              (process_read doReq initState
                (((consumed ++ [b]) ++ (c :: rest3)).take k)).2 =
                HTTP_CODE.NO_REQUEST := by
            intro k h1 h2
            simp only [List.length_append, List.length_cons, List.length_nil] at h1 h2
            have hb1 : consumed.length < k := by omega
            have hb2 : k < consumed.length + (b :: c :: rest3).length := by
              simp only [List.length_cons]
              omega
            have := hpref k hb1 hb2
            rwa [show (consumed ++ [b]) ++ (c :: rest3) = consumed ++ b :: c :: rest3 by
              simp]
          have hR1 : (process_read doReq st (consumed ++ [b])).1 =
              (process_read doReq initState (consumed ++ [b])).1 :=
            congrArg Prod.fst hhead
          have hunfold : (feedBytes doReq st consumed (b :: c :: rest3)).2 =
              (process_read doReq st (consumed ++ [b])).2 ::
              (feedBytes doReq (process_read doReq st (consumed ++ [b])).1
                (consumed ++ [b]) (c :: rest3)).2 := rfl
          rw [hunfold, congrArg Prod.snd hhead, hcode, hR1]
          rw [ih (consumed ++ [b]) (process_read doReq initState (consumed ++ [b])).1
            (by simp) hpos2 hagree2 hpref2]
          rw [show (consumed ++ [b]) ++ (c :: rest3) = consumed ++ b :: c :: rest3 by
            simp]
          simp [List.replicate_succ]

/-- C8: incremental parsing is equivalent to batch parsing. Feeding a
well-formed request to the parser one byte at a time (running `process_read`
after every byte, threading the connection state) yields `NO_REQUEST` after
every proper prefix and, after the final byte, exactly the terminal
classification that parsing the entire request at once yields — for any
resource resolver `doReq`. -/
theorem C8_incremental_equals_batch (doReq : HttpState → HTTP_CODE)
    (R : List Char) (hwf : WellFormedRequest R) :
    (feedBytes doReq initState [] R).2 =
      List.replicate (R.length - 1) HTTP_CODE.NO_REQUEST ++
        [(process_read doReq initState R).2] := by
  have hne : R ≠ [] := by
    obtain ⟨rl, hs, body, st1, hR, -⟩ := hwf
    intro hcon
    rw [hcon] at hR
    have := congrArg List.length hR
    simp [CRLF] at this
    omega
  have h := feedBytes_wf doReq R [] initState hne (Nat.le_refl 0)
    (fun ext => rfl)
    (fun k h1 h2 => by
      have : (([] : List Char) ++ R) = R := by simp
      rw [this]
      exact prefix_no_request doReq R hwf k (by simpa using h2))
  simpa using h

/-- The request line of the concrete witness request. -/
def c8rl : List Char :=
  'G' :: 'E' :: 'T' :: ' ' :: '/' :: ' ' :: 'H' :: 'T' :: 'T' :: 'P' :: '/' ::
    '1' :: '.' :: '1' :: []

/-- A concrete well-formed GET request (spec §8 scenario):
`GET / HTTP/1.1` followed by an empty header block and the blank line. -/
def c8Request : List Char := c8rl ++ CRLF ++ joinLines [] ++ CRLF ++ []

/-- The parser state after the witness request line. -/
def c8st1 : HttpState :=
  { checkState := CHECK_STATE.CHECK_STATE_HEADER, pos := 0, method := METHOD.GET,
    url := defaultLanding,
    version := 'H' :: 'T' :: 'T' :: 'P' :: '/' :: '1' :: '.' :: '1' :: [],
    host := [], contentLength := 0, linger := false, body := [] }

/-- C8 witness: the concrete GET request is well formed, so feeding it one
byte at a time gives NO_REQUEST for all 17 proper prefixes and then the batch
classification. -/
theorem C8_incremental_equals_batch_witness :
    (feedBytes (fun _ => HTTP_CODE.FILE_REQUEST) initState [] c8Request).2 =
      List.replicate (c8Request.length - 1) HTTP_CODE.NO_REQUEST ++
        [(process_read (fun _ => HTTP_CODE.FILE_REQUEST) initState c8Request).2] := by
  apply C8_incremental_equals_batch
  refine ⟨c8rl, [], [], c8st1, rfl, by unfold noTerm; decide, by simp, by decide, ?_,
    fun _ => rfl⟩
  intro hcon
  exact absurd hcon.1 (by decide)

end Webserver
